/-
  Verification development for the documentation indexing / adaptive search
  engine of `backend/services/odooDocService.js` (class
  `OdooDocumentationService`).

  Modelling conventions:
  * JS strings are embedded as `List Char` (`Str`); `String.toLowerCase()`
    is `toLowerL` (`Char.toLower` per character, basic-latin case mapping),
    `String.includes` is substring (`<:+:`) membership, `endsWith` is list
    suffix, `split(/\s+/)` is `splitWs` (JS field semantics, including the
    empty leading/trailing fields JS produces).
  * `Map` objects are embedded as association lists in insertion order;
    `Map.set` (`mapSet`) overwrites in place or appends, `new Map(entries)`
    is `mapOfList`.
  * ISO date strings (`new Date().toISOString()`, `new Date(s).getTime()`,
    `Date.now()`) are abstracted as epoch-millisecond integers; the
    truthiness test `if (doc.lastUpdated)` becomes an `Option` test.
  * `new RegExp(term, 'g')` match counting is embedded only on its literal
    fragment: for a pattern free of regex metacharacters it equals greedy
    non-overlapping literal occurrence counting (`countOcc`); any pattern
    containing a metacharacter is mapped to the error case of an `Except`
    (in JS some of those patterns are valid regexes and some, such as an
    unmatched open parenthesis, throw a `SyntaxError`; the claims below
    rely only on the literal fragment and on the existence of throwing
    patterns, which is witnessed directly from the JS regex grammar).
  * Property access `obj[term]` on the synonym / technical-variant object
    literals walks the prototype chain: an own key yields its array; a term
    naming an inherited `Object.prototype` property (`constructor`,
    `__proto__`, `toString`, ...) yields a truthy but non-iterable value, so
    the spread `...obj[term]` guarded by the truthiness test throws a
    `TypeError` (mapped to the error case of an `Except`); any other term
    yields `undefined`, which is falsy and contributes nothing.
  * `Math.log` is embedded as `Real.log`, the idealisation of the
    floating-point logarithm; scores are real numbers.
-/
import Mathlib

set_option maxHeartbeats 1000000

/-- JS strings are modelled as lists of characters. -/
abbrev Str := List Char

/-- `String.toLowerCase()` (basic-latin case mapping, per character). -/
def toLowerL (s : Str) : Str := s.map Char.toLower

/-- JS `\s` whitespace class (ASCII fragment: space, tab, LF, VT, FF, CR). -/
def jsIsWs (c : Char) : Bool :=
  c == ' ' || c == '\t' || c == '\n' || c == '\x0b' || c == '\x0c' || c == '\r'

/-- Worker for `splitWs`; the `Bool` is true while skipping a whitespace run
that has already produced a field boundary. -/
def splitWsAux : Str → Str → Bool → List Str
  | [], cur, false => [cur.reverse]
  | [], _, true => [[]]
  | c :: rest, cur, false =>
    if jsIsWs c then cur.reverse :: splitWsAux rest [] true
    else splitWsAux rest (c :: cur) false
  | c :: rest, cur, true =>
    if jsIsWs c then splitWsAux rest cur true
    else splitWsAux rest [c] false

/-- JS `s.split(/\s+/)`: fields separated by maximal whitespace runs, with
the empty leading/trailing fields JS produces on boundary whitespace. -/
def splitWs (s : Str) : List Str := splitWsAux s [] false

/-- JS `hay.includes(needle)` (substring test). -/
def jsIncludes (hay needle : Str) : Bool := decide (needle <:+: hay)

/-- JS `[...new Set(l)]`: deduplication keeping first occurrences; `seen`
accumulates the elements already emitted. -/
def jsSetDedupGo {α : Type} [DecidableEq α] (seen : List α) : List α → List α
  | [] => []
  | a :: l => if a ∈ seen then jsSetDedupGo seen l else a :: jsSetDedupGo (a :: seen) l

/-- JS `[...new Set(l)]`. -/
def jsSetDedup {α : Type} [DecidableEq α] (l : List α) : List α := jsSetDedupGo [] l

/-- JS `Map.set m k v`: overwrite in place if the key is present, else append
(insertion order is preserved, as for JS `Map`). -/
def mapSet {β : Type} (m : List (Str × β)) (k : Str) (v : β) : List (Str × β) :=
  if m.any (fun e => e.1 == k) then m.map (fun e => if e.1 == k then (k, v) else e)
  else m ++ [(k, v)]

/-- JS `new Map(entries)`: insert the pairs in order into an empty map. -/
def mapOfList {β : Type} (l : List (Str × β)) : List (Str × β) :=
  l.foldl (fun m e => mapSet m e.1 e.2) []

/-- JS `Map.get`. -/
def mapGet {β : Type} (m : List (Str × β)) (k : Str) : Option β :=
  (m.find? (fun e => e.1 == k)).map Prod.snd

/-- The `metadata` object attached to a document record.  Only the fields the
verified claims depend on are modelled: `source` (present with value
`'synthetic'` exactly on enrichment documents, absent on parsed documents)
and `parser` (`'rst'` or `'markdown'` on parsed documents).  The remaining
informational fields (`type`, `priority`, `language`, `created`, and the
spread-in copy of the parse metadata) are not modelled. -/
structure DocMeta where
  source : Option Str := none
  parserTag : Option Str := none
deriving DecidableEq, Repr

/-- One document record of the in-memory index (`DocumentRecord`).  Field
`sectionName` is the source's `section` (renamed: `section` is a Lean
keyword); `lastUpdated` is the ISO timestamp abstracted as epoch
milliseconds (`none` models an absent/falsy `lastUpdated`). -/
structure Doc where
  id : Str
  filePath : Str
  fullPath : Str
  title : Str
  description : Str
  content : Str
  sectionName : Str
  subsection : Str
  keywords : List Str
  lastUpdated : Option Int
  wordCount : Nat
  readingTime : Nat
  fileSize : Nat
  fileType : Str
  metadata : DocMeta
deriving DecidableEq, Repr

/-- The bilingual synonym table of `preprocessSearchTerms` (transcribed
verbatim; the `'API'` key is retained even though lower-cased base terms can
never hit it, exactly as in the source). -/
def synonymsTable : List (Str × List Str) :=
  [ ("congé", ["leave", "vacation", "time off", "absence", "holiday"]),
    ("leave", ["congé", "vacation", "absence"]),
    ("projet", ["project", "task", "tache", "planning", "workflow"]),
    ("project", ["projet", "task", "planning"]),
    ("vente", ["sales", "sell", "customer", "client", "commercial"]),
    ("sales", ["vente", "sell", "customer", "commercial"]),
    ("achat", ["purchase", "vendor", "supplier", "fournisseur", "procurement"]),
    ("purchase", ["achat", "vendor", "supplier", "fournisseur"]),
    ("stock", ["inventory", "warehouse", "location", "entrepot"]),
    ("inventory", ["stock", "warehouse", "location"]),
    ("comptabilité", ["accounting", "finance", "invoice", "facture", "financial"]),
    ("accounting", ["comptabilité", "finance", "invoice", "facture"]),
    ("paie", ["payroll", "salary", "salaire", "wage", "remuneration"]),
    ("payroll", ["paie", "salary", "salaire", "wage"]),
    ("utilisateur", ["user", "employee", "employé", "person", "membre"]),
    ("user", ["utilisateur", "employee", "employé"]),
    ("configuration", ["config", "setup", "paramètre", "setting", "parameter"]),
    ("setup", ["configuration", "config", "paramètre"]),
    ("rapport", ["report", "reporting", "dashboard", "analytics"]),
    ("report", ["rapport", "reporting", "dashboard"]),
    ("module", ["addon", "app", "application", "extension"]),
    ("addon", ["module", "app", "application"]),
    ("API", ["api", "interface", "endpoint", "webservice"]),
    ("base", ["database", "db", "donnée", "data"]),
    ("database", ["base", "db", "donnée"]),
    ("vue", ["view", "form", "tree", "kanban"]),
    ("view", ["vue", "form", "tree"]),
    ("modèle", ["model", "table", "record", "data"]),
    ("model", ["modèle", "table", "record"]),
    ("champ", ["field", "column", "attribute", "property"]),
    ("field", ["champ", "column", "attribute"]),
    ("workflow", ["flux", "process", "processus", "sequence"]),
    ("process", ["workflow", "flux", "processus"]),
    ("email", ["mail", "message", "notification", "courrier"]),
    ("mail", ["email", "message", "notification"]),
    ("website", ["site", "web", "portal", "ecommerce"]),
    ("portal", ["website", "site", "web"]),
    ("manufacturing", ["mrp", "production", "fabrication", "usine"]),
    ("mrp", ["manufacturing", "production", "fabrication"]),
    ("crm", ["customer", "lead", "opportunity", "prospect"]),
    ("lead", ["crm", "prospect", "opportunity"]),
    ("partner", ["client", "customer", "vendor", "contact"]),
    ("contact", ["partner", "client", "customer"]),
    ("invoice", ["facture", "bill", "billing", "facturation"]),
    ("facture", ["invoice", "bill", "billing"]),
    ("product", ["produit", "article", "item", "merchandise"]),
    ("produit", ["product", "article", "item"]),
    ("installation", ["install", "setup", "deployment", "configuration"]),
    ("install", ["installation", "setup", "deployment"]),
    ("erreur", ["error", "bug", "issue", "problem"]),
    ("error", ["erreur", "bug", "issue", "problem"])
  ].map (fun p => (p.1.data, p.2.map String.data))

/-- The technical-variant table of `preprocessSearchTerms`. -/
def technicalVariantsTable : List (Str × List Str) :=
  [ ("odoo", ["erp", "openerp", "enterprise"]),
    ("xml", ["view", "template", "qweb"]),
    ("python", ["py", "script", "code"]),
    ("javascript", ["js", "script", "frontend"]),
    ("postgresql", ["postgres", "db", "database"]),
    ("css", ["style", "design", "frontend"]),
    ("html", ["template", "qweb", "frontend"])
  ].map (fun p => (p.1.data, p.2.map String.data))

/-- The own property names of `Object.prototype`, inherited by every plain
object literal through the prototype chain.  For each of these, `obj[term]`
on an object literal without `term` as an own key yields a truthy value (a
function, or `Object.prototype` itself for `__proto__`) that is not
iterable. -/
def protoProps : List Str :=
  [ "constructor", "hasOwnProperty", "isPrototypeOf", "propertyIsEnumerable",
    "toLocaleString", "toString", "valueOf", "__defineGetter__",
    "__defineSetter__", "__lookupGetter__", "__lookupSetter__", "__proto__"
  ].map String.data

/-- One guarded expansion step of `preprocessSearchTerms`:
`if (table[term]) enrichedTerms.push(...table[term])`.  An own key of the
object literal yields its array (truthy, spread succeeds); a term naming an
inherited `Object.prototype` property passes the truthiness test but its
value is not iterable, so the spread throws a `TypeError`; any other term
reads `undefined` (falsy) and pushes nothing. -/
def tableLookup (table : List (Str × List Str)) (t : Str) : Except Unit (List Str) :=
  match table.find? (fun e => e.1 == t) with
  | some e => Except.ok e.2
  | none =>
    if protoProps.any (fun p => p == t) then Except.error () else Except.ok []

/-- One `baseTerms.forEach` expansion loop of `preprocessSearchTerms`: the
concatenation of the pushed expansions in order, or the first thrown
`TypeError`. -/
def expandTerms (table : List (Str × List Str)) : List Str → Except Unit (List Str)
  | [] => Except.ok []
  | t :: rest =>
    match tableLookup table t with
    | Except.error e => Except.error e
    | Except.ok v =>
      match expandTerms table rest with
      | Except.error e => Except.error e
      | Except.ok r => Except.ok (v ++ r)

/-- `preprocessSearchTerms(query)`: lower-case, split on whitespace, keep
tokens of length > 2, append synonym and technical-variant expansions of the
base tokens, deduplicate keeping first occurrences.  The expansion loops
throw a `TypeError` (the `Except` error case) whenever a base token names an
inherited `Object.prototype` property of the table literals, such as
`constructor` or `__proto__`. -/
def preprocessSearchTerms (query : Str) : Except Unit (List Str) :=
  let baseTerms := (splitWs (toLowerL query)).filter (fun t => 2 < t.length)
  match expandTerms synonymsTable baseTerms with
  | Except.error e => Except.error e
  | Except.ok syn =>
    match expandTerms technicalVariantsTable baseTerms with
    | Except.error e => Except.error e
    | Except.ok tv => Except.ok (jsSetDedup (baseTerms ++ syn ++ tv))

/-- `modulePatterns` of `detectQueryType` (insertion order preserved). -/
def modulePatterns : List (Str × List Str) :=
  [ ("hr", ["congé", "leave", "employee", "hr", "rh", "paie", "payroll", "timesheet"]),
    ("sales", ["vente", "sales", "customer", "devis", "quote", "order"]),
    ("purchase", ["achat", "purchase", "vendor", "supplier", "procurement"]),
    ("inventory", ["stock", "inventory", "warehouse", "location"]),
    ("accounting", ["comptabilité", "accounting", "facture", "invoice", "financial"]),
    ("project", ["projet", "project", "task", "planning"]),
    ("manufacturing", ["manufacturing", "mrp", "production", "bom"]),
    ("website", ["website", "ecommerce", "portal", "web"]),
    ("crm", ["crm", "lead", "opportunity", "prospect"])
  ].map (fun p => (p.1.data, p.2.map String.data))

/-- `actionPatterns` of `detectQueryType`. -/
def actionPatterns : List (Str × List Str) :=
  [ ("configuration", ["configuration", "setup", "config", "paramètre"]),
    ("development", ["développement", "development", "code", "python", "xml", "api"]),
    ("installation", ["installation", "install", "deployment"]),
    ("usage", ["utilisation", "usage", "comment", "how to"]),
    ("troubleshooting", ["erreur", "error", "problem", "bug", "issue"]),
    ("reporting", ["rapport", "report", "dashboard", "analytics"])
  ].map (fun p => (p.1.data, p.2.map String.data))

/-- Alternatives of the complexity regex `/api|python|xml|développement|code|custom/`. -/
def technicalRegexAlts : List Str :=
  ["api", "python", "xml", "développement", "code", "custom"].map String.data

/-- Alternatives of the complexity regex `/comment|how|pourquoi|why|what|que/`. -/
def beginnerRegexAlts : List Str :=
  ["comment", "how", "pourquoi", "why", "what", "que"].map String.data

/-- `detectQueryType(query)`: matched module tags, then matched action tags,
then the complexity tag (`technical` before `beginner`, mutually exclusive);
`['general']` when nothing matched. -/
def detectQueryType (query : Str) : List Str :=
  let queryLower := toLowerL query
  let moduleTypes :=
    (modulePatterns.filter (fun p => p.2.any (fun kw => jsIncludes queryLower kw))).map Prod.fst
  let actionTypes :=
    (actionPatterns.filter (fun p => p.2.any (fun kw => jsIncludes queryLower kw))).map Prod.fst
  let complexity :=
    if technicalRegexAlts.any (fun a => jsIncludes queryLower a) then ["technical".data]
    else if beginnerRegexAlts.any (fun a => jsIncludes queryLower a) then ["beginner".data]
    else []
  let types := moduleTypes ++ actionTypes ++ complexity
  if types.isEmpty then ["general".data] else types

/-- `relativePath.replace(/[\\\/]/g, '_')`. -/
def replaceSeps (p : Str) : Str :=
  p.map (fun c => if c == '/' || c == '\\' then '_' else c)

/-- `.replace(/\.(rst|md)$/, '')`: strip one trailing (case-sensitive)
`.rst` or `.md`. -/
def stripSupportedExt (p : Str) : Str :=
  if ".rst".data.isSuffixOf p then p.take (p.length - 4)
  else if ".md".data.isSuffixOf p then p.take (p.length - 3)
  else p

/-- `generateDocumentId(relativePath)`. -/
def generateDocumentId (relativePath : Str) : Str :=
  toLowerL (stripSupportedExt (replaceSeps relativePath))

/-- `supportedExtensions` of the service. -/
def supportedExtensions : List Str := [".rst".data, ".md".data]

/-- `isRstFile(filename)`: case-insensitive supported-extension test. -/
def isRstFile (filename : Str) : Bool :=
  supportedExtensions.any (fun ext => ext.isSuffixOf (toLowerL filename))

/-- The regex metacharacters; a search term containing any of these is not a
plain literal pattern for `new RegExp(term, 'g')`. -/
def regexMetaChars : List Char :=
  ['\\', '^', '$', '.', '|', '?', '*', '+', '(', ')', '[', ']', '\x7b', '\x7d']

/-- A term on which `new RegExp(term, 'g')` is modelled: free of regex
metacharacters, hence a literal pattern. -/
def isRegexSafe (t : Str) : Bool := t.all (fun c => !(regexMetaChars.contains c))

/-- Fueled worker for `countOcc` (the fuel makes the greedy scan
structurally recursive; `countOcc` supplies enough fuel for it never to run
out). -/
def countOccF (pat : Str) : Nat → Str → Nat
  | 0, _ => 0
  | _ + 1, [] => if pat.length = 0 then 1 else 0
  | fuel + 1, c :: t =>
    if pat.length = 0 then (c :: t).length + 1
    else if pat.isPrefixOf (c :: t) then 1 + countOccF pat fuel ((c :: t).drop pat.length)
    else countOccF pat fuel t

/-- Greedy non-overlapping occurrence count of a literal pattern: the length
of `content.match(new RegExp(pat, 'g'))` for a metacharacter-free `pat`
(an empty pattern matches once at every position, as the empty JS regex
does). -/
def countOcc (pat s : Str) : Nat := countOccF pat (s.length + 1) s

/-- `(contentLower.match(new RegExp(term, 'g')) || []).length`, with the
throwing/unmodelled patterns mapped to the error case. -/
def countMatchesE (term content : Str) : Except Unit Nat :=
  if isRegexSafe term then Except.ok (countOcc term content) else Except.error ()

/-- The logarithmic content-frequency bonus: `Math.min(Math.log(n + 1) * 15,
50)` for a positive raw occurrence count `n`, and `0` otherwise. -/
noncomputable def contentFreqBonus (n : Nat) : ℝ :=
  if 0 < n then min (Real.log ((n : ℝ) + 1) * 15) 50 else 0

/-- The per-term portion of `calculateAdaptiveScore` (step 1): title bonus
100 (+50 on whole-title equality), description bonus 40, logarithmic
content-frequency bonus capped at 50, section bonus 25, subsection bonus 20
(subsection participates only when truthy, i.e. non-empty). -/
noncomputable def termScoreVal (doc : Doc) (term : Str) : ℝ :=
  let titleLower := toLowerL doc.title
  let descLower := toLowerL doc.description
  let contentLower := toLowerL doc.content
  (if jsIncludes titleLower term then (100 : ℝ) + (if titleLower = term then 50 else 0) else 0)
    + (if jsIncludes descLower term then 40 else 0)
    + contentFreqBonus (countOcc term contentLower)
    + (if jsIncludes (toLowerL doc.sectionName) term then 25 else 0)
    + (if doc.subsection ≠ [] ∧ jsIncludes (toLowerL doc.subsection) term then 20 else 0)

/-- The per-term score, with the regex construction on the term modelled as
in `countMatchesE`: it errors (JS: may throw) outside the literal fragment. -/
noncomputable def termScoreE (doc : Doc) (term : Str) : Except Unit ℝ :=
  if isRegexSafe term then Except.ok (termScoreVal doc term) else Except.error ()

/-- One arm of the `switch (type)` of `getTypeSpecificBonus`: the bonus
contributed by a single query-type tag. -/
def typeBonusStep (doc : Doc) (ty : Str) : Int :=
  let docSection := toLowerL doc.sectionName
  let docTitle := toLowerL doc.title
  let docContent := toLowerL doc.content
  (if ty = "hr".data then
        (if jsIncludes docSection "hr".data || jsIncludes docSection "timesheet".data
            || jsIncludes docTitle "employee".data || jsIncludes docTitle "leave".data
            || jsIncludes docTitle "payroll".data then 150 else 0)
      else if ty = "sales".data then
        (if jsIncludes docSection "sales".data || jsIncludes docSection "crm".data
            || jsIncludes docTitle "customer".data || jsIncludes docTitle "quote".data
          then 120 else 0)
      else if ty = "accounting".data then
        (if jsIncludes docSection "accounting".data || jsIncludes docTitle "invoice".data
            || jsIncludes docTitle "payment".data then 120 else 0)
      else if ty = "development".data then
        (if jsIncludes docSection "developer".data || jsIncludes docContent "python".data
            || jsIncludes docContent "xml".data || jsIncludes docContent "api".data
          then 100 else 0)
      else if ty = "configuration".data then
        (if jsIncludes docTitle "configuration".data || jsIncludes docTitle "setup".data
            || jsIncludes docContent "setting".data then 80 else 0)
      else if ty = "beginner".data then
        (if jsIncludes docTitle "introduction".data || jsIncludes docTitle "getting started".data
            || jsIncludes docContent "step by step".data then 60 else 0)
          + (if jsIncludes docContent "advanced".data || jsIncludes docContent "customize".data
              || jsIncludes docContent "override".data then -30 else 0)
  else if ty = "technical".data then
    (if jsIncludes docContent "api".data || jsIncludes docContent "code".data
        || jsIncludes docContent "development".data then 80 else 0)
  else 0)

/-- `getTypeSpecificBonus(doc, queryType, originalQuery)` (the
`originalQuery` parameter is unused in the source body and omitted): the
`queryType.forEach` accumulation of the per-tag bonuses. -/
def getTypeSpecificBonus (doc : Doc) (queryType : List Str) : Int :=
  queryType.foldl (fun bonus ty => bonus + typeBonusStep doc ty) 0

/-- `1000 * 60 * 60 * 24 * 30` milliseconds: the month used for the recency
tiers. -/
def monthMs : Int := 2592000000

/-- The `importantSections` list of `applyQualityAdjustments`. -/
def importantSections : List Str := ["user", "administration", "applications"].map String.data

/-- `applyQualityAdjustments(doc, originalQuery, queryType)` (the
`originalQuery` parameter is unused in the source body and omitted); `now`
is `Date.now()`.  `monthsOld < 6` on the real quotient is equivalent to the
integer comparison against `6 * monthMs` used here. -/
def applyQualityAdjustments (doc : Doc) (queryType : List Str) (now : Int) : Int :=
  let docContent := toLowerL doc.content
  let docTitle := toLowerL doc.title
  (if 500 < doc.wordCount then 10 else 0)
    + (if 1000 < doc.wordCount then 10 else 0)
    + (match doc.lastUpdated with
       | none => 0
       | some t =>
         if now - t < 6 * monthMs then 15 else if now - t < 12 * monthMs then 5 else 0)
    + (if !(queryType.contains "technical".data) && !(queryType.contains "development".data) then
        (if jsIncludes docContent "class ".data || jsIncludes docContent "def ".data
            || jsIncludes docContent "import ".data || jsIncludes docContent "from ".data
          then -40 else 0)
      else 0)
    + (if importantSections.any (fun s => jsIncludes doc.sectionName s) then 15 else 0)
    + (if doc.wordCount < 100 then -20 else 0)
    + (if 10 < docTitle.length ∧ docTitle.length < 100 then 5 else 0)

/-- The bonus of a single contextual term (step 4 of
`calculateAdaptiveScore`): +30 when the lower-cased term appears in the
title or the content. -/
noncomputable def ctxBonusStep (doc : Doc) (t : Str) : ℝ :=
  if jsIncludes (toLowerL doc.title) (toLowerL t)
      || jsIncludes (toLowerL doc.content) (toLowerL t) then 30 else 0

/-- The `contextualTerms.forEach` accumulation of step 4. -/
noncomputable def ctxBonusVal (doc : Doc) (contextualTerms : List Str) : ℝ :=
  contextualTerms.foldl (fun acc t => acc + ctxBonusStep doc t) 0

/-- The metacharacter-free (never-throwing) value of
`calculateAdaptiveScore`: sum of per-term scores, exact-phrase bonus 80,
type-specific bonus, +30 per matching contextual term, quality adjustments,
clamped to [0, 1000]. -/
noncomputable def calculateAdaptiveScoreVal (doc : Doc) (searchTerms : List Str)
    (originalQuery : Str) (queryType : List Str) (contextualTerms : List Str) (now : Int) : ℝ :=
  let base : ℝ := (searchTerms.map (termScoreVal doc)).sum
  let phraseBonus : ℝ :=
    if jsIncludes (toLowerL doc.content) (toLowerL originalQuery) then 80 else 0
  max 0 (min (base + phraseBonus + (getTypeSpecificBonus doc queryType : Int)
      + ctxBonusVal doc contextualTerms + (applyQualityAdjustments doc queryType now : Int)) 1000)

/-- `calculateAdaptiveScore(doc, searchTerms, originalQuery, queryType,
context)`: the per-term loop constructs `new RegExp(term, 'g')`, so the
whole computation errors on the first term outside the literal fragment. -/
noncomputable def calculateAdaptiveScoreE (doc : Doc) (searchTerms : List Str)
    (originalQuery : Str) (queryType : List Str) (contextualTerms : List Str) (now : Int) :
    Except Unit ℝ := do
  let scores ← searchTerms.mapM (termScoreE doc)
  let base : ℝ := scores.sum
  let phraseBonus : ℝ :=
    if jsIncludes (toLowerL doc.content) (toLowerL originalQuery) then 80 else 0
  pure (max 0 (min (base + phraseBonus + (getTypeSpecificBonus doc queryType : Int)
      + ctxBonusVal doc contextualTerms + (applyQualityAdjustments doc queryType now : Int)) 1000))

/-- The sentence delimiters of `content.split(/[.!?]+/)`. -/
def isSentencePunct (c : Char) : Bool := c == '.' || c == '!' || c == '?'

/-- Worker for `splitRuns`; same field semantics as `splitWsAux` but for an
arbitrary delimiter class. -/
def splitRunsAux (p : Char → Bool) : Str → Str → Bool → List Str
  | [], cur, false => [cur.reverse]
  | [], _, true => [[]]
  | c :: rest, cur, false =>
    if p c then cur.reverse :: splitRunsAux p rest [] true
    else splitRunsAux p rest (c :: cur) false
  | c :: rest, cur, true =>
    if p c then splitRunsAux p rest cur true
    else splitRunsAux p rest [c] false

/-- JS `s.split(re)` for a character-class-plus regex: fields separated by
maximal delimiter runs. -/
def splitRuns (p : Char → Bool) (s : Str) : List Str := splitRunsAux p s [] false

/-- JS `s.trim()` (ASCII whitespace fragment). -/
def trimWs (s : Str) : Str :=
  ((s.dropWhile jsIsWs).reverse.dropWhile jsIsWs).reverse

/-- `extractRelevantExcerpt(content, searchTerms)`: sentence with the
highest cumulative term-length score (strictly-greater comparison keeps the
earliest), truncated to 300 characters plus an ellipsis; first 200
characters of content as fallback. -/
def extractRelevantExcerpt (content : Str) (searchTerms : List Str) : Str :=
  let sentences := (splitRuns isSentencePunct content).filter (fun s => 20 < (trimWs s).length)
  let best := sentences.foldl (fun (acc : Str × Nat) sentence =>
    let score := searchTerms.foldl (fun sc t =>
      if jsIncludes (toLowerL sentence) t then sc + t.length else sc) 0
    if acc.2 < score then (sentence, score) else acc) ([], 0)
  if best.1 ≠ [] ∧ 0 < best.2 then (trimWs best.1).take 300 ++ "...".data
  else content.take 200 ++ "...".data

/-- The options object of `searchDocumentation`, with the source's
destructuring defaults.  `sectionFilter` is the source's `section` option
(`none` models the falsy default `null`); `semanticBoost` is accepted and,
as in the source, never read. -/
structure SearchOptions where
  limit : Nat := 20
  sectionFilter : Option Str := none
  minScore : ℝ := 0
  includeMetadata : Bool := true
  semanticBoost : Bool := true
  contextualTerms : List Str := []

/-- One returned result: the spread `{...doc, score, excerpt}` — a fresh
record carrying a copy of the stored document's fields plus the computed
score and excerpt. -/
structure SearchHit where
  doc : Doc
  score : ℝ
  excerpt : Str

/-- The value returned by `searchDocumentation`. -/
structure SearchResult where
  results : List SearchHit
  sourcesSummary : List Str

/-- The process-wide metric counters (the timing fields are not modelled). -/
structure Metrics where
  totalFiles : Nat := 0
  processedFiles : Nat := 0
  failedFiles : Nat := 0
  totalBytesProcessed : Nat := 0
deriving DecidableEq, Repr

/-- The mutable service state read (and potentially written) by the public
operations: the documentation index, `lastUpdate`, and the metrics. -/
structure ServiceState where
  documentationIndex : List (Str × Doc)
  lastUpdate : Option Int := none
  metrics : Metrics := {}

/-- The candidate loop of `searchDocumentation`: per entry, apply the
optional section filter, compute the adaptive score (propagating a regex
error, as the JS exception would), and keep `{...doc, score, excerpt}` when
`score >= minScore`. -/
noncomputable def scoreEntries (entries : List (Str × Doc)) (searchTerms : List Str)
    (query : Str) (queryType : List Str) (opts : SearchOptions) (now : Int) :
    Except Unit (List SearchHit) :=
  match entries with
  | [] => Except.ok []
  | (_, doc) :: rest =>
    if (match opts.sectionFilter with
        | some s => !(doc.sectionName == s)
        | none => false) then
      scoreEntries rest searchTerms query queryType opts now
    else do
      let score ← calculateAdaptiveScoreE doc searchTerms query queryType opts.contextualTerms now
      let tail ← scoreEntries rest searchTerms query queryType opts now
      if opts.minScore ≤ score then
        pure ({doc := doc, score := score,
               excerpt := extractRelevantExcerpt doc.content searchTerms} :: tail)
      else pure tail

/-- Descending insertion keeping earlier entries on ties (a model of
`results.sort((a, b) => b.score - a.score)`). -/
noncomputable def insertByScore (h : SearchHit) : List SearchHit → List SearchHit
  | [] => [h]
  | h2 :: t => if h2.score < h.score then h :: h2 :: t else h2 :: insertByScore h t

/-- Descending sort by score. -/
noncomputable def sortByScoreDesc (l : List SearchHit) : List SearchHit :=
  l.foldr insertByScore []

/-- JS `s.replace(pat, rep)` with a string pattern: replace the leftmost
occurrence only (the string unchanged when there is none). -/
def replaceFirstL (pat rep : Str) (s : Str) : Str :=
  if pat.isPrefixOf s then rep ++ s.drop pat.length
  else
    match s with
    | [] => []
    | c :: t => c :: replaceFirstL pat rep t
termination_by s.length
decreasing_by
  simp only [List.length_cons]
  omega

/-- One line of `sourcesSummary` for a distinct section value. -/
def sourceLine (sectionName : Str) : Str :=
  let clean := replaceFirstL "_".data " ".data
    (replaceFirstL "/developer/".data [] (replaceFirstL "/applications/".data [] sectionName))
  "Ces informations proviennent de la documentation ".data ++ clean

/-- `searchDocumentation(query, options)`: preprocess, classify, score every
index entry, sort descending, drop scores ≤ 10 (the fixed quality floor),
build `sourcesSummary` from the distinct sections of the surviving results,
truncate to `limit`.  A `TypeError` thrown by term preprocessing or a
`SyntaxError` thrown by the per-term `new RegExp` construction propagates
uncaught (the `Except` error case).  The state is passed through to make the
absence of writes to the service state a provable statement. -/
noncomputable def searchDocumentation (st : ServiceState) (query : Str)
    (opts : SearchOptions) (now : Int) : Except Unit (SearchResult × ServiceState) :=
  match preprocessSearchTerms query with
  | Except.error e => Except.error e
  | Except.ok searchTerms =>
    let queryType := detectQueryType query
    (scoreEntries st.documentationIndex searchTerms query queryType opts now).map
      (fun results =>
        let sorted := sortByScoreDesc results
        let qualityResults := sorted.filter (fun h => decide ((10 : ℝ) < h.score))
        let sourcesSummary :=
          (jsSetDedup (qualityResults.map (fun h => h.doc.sectionName))).map sourceLine
        ({results := qualityResults.take opts.limit, sourcesSummary := sourcesSummary}, st))

/-- The stats record returned by `getStats()` (the environment-supplied
version string is a parameter). -/
structure Stats where
  totalDocuments : Nat
  lastUpdate : Option Int
  sections : List (Str × Nat)
  version : Str
  source : Str
  metrics : Metrics

/-- The per-section document counts of `getStats`. -/
def sectionsCount (idx : List (Str × Doc)) : List (Str × Nat) :=
  idx.foldl (fun m e => mapSet m e.2.sectionName ((mapGet m e.2.sectionName).getD 0 + 1)) []

/-- `getStats()`: a total computation over the current state. -/
def getStats (st : ServiceState) (version : Str) : Stats :=
  { totalDocuments := st.documentationIndex.length
    lastUpdate := st.lastUpdate
    sections := sectionsCount st.documentationIndex
    version := version
    source := "GitHub".data
    metrics := st.metrics }

/-- `path.extname(filePath).toLowerCase()`: the dot-suffix of the final path
component (empty for a dotless or dotfile-style basename). -/
def extnameLower (p : Str) : Str :=
  let base := (p.reverse.takeWhile (fun c => !(c == '/' || c == '\\'))).reverse
  let afterDot := (base.reverse.takeWhile (fun c => !(c == '.'))).reverse
  if afterDot.length + 1 < base.length then toLowerL ('.' :: afterDot) else []

/-- The metadata record produced by `extractRstMetadata` /
`extractMarkdownMetadata`. -/
structure ParsedMeta where
  title : Str := []
  description : Str := []
  keywords : List Str := []
  sectionName : Str := []
  subsection : Str := []
deriving DecidableEq, Repr

/-- `processRstFile(filePath)`.  The file read and the four dialect helpers
are abstracted as parameters: `readRes` is the outcome of `fs.readFile`
(the error case models an unreadable file, whose exception the source
catches, logs, and converts to `null` without touching the metrics — the
increments below line 280 of the source are unreachable on that path);
`extractMd` / `extractRst` model `extractMarkdownMetadata` /
`extractRstMetadata`, and `cleanMd` / `cleanRst` model
`cleanMarkdownContent` / `cleanRstContent` (regex-replacement chains no
claim depends on).  A cleaned content shorter than 100 characters yields
`none` before any metric is incremented. -/
def processRstFile (extractMd extractRst : Str → Str → ParsedMeta)
    (cleanMd cleanRst : Str → Str) (readRes : Except Unit Str)
    (relativePath fullPath : Str) (nowMs : Int) (m : Metrics) : Option Doc × Metrics :=
  match readRes with
  | .error _ => (none, m)
  | .ok content =>
    let fileExtension := extnameLower relativePath
    let md : Bool := fileExtension == ".md".data
    let metadata := if md then extractMd content relativePath else extractRst content relativePath
    let cleanContent := if md then cleanMd content else cleanRst content
    if cleanContent.length < 100 then (none, m)
    else
      let wc := (splitWs cleanContent).length
      let doc : Doc :=
        { id := generateDocumentId relativePath
          filePath := relativePath
          fullPath := fullPath
          title := metadata.title
          description := metadata.description
          content := cleanContent
          sectionName := metadata.sectionName
          subsection := metadata.subsection
          keywords := metadata.keywords
          lastUpdated := some nowMs
          wordCount := wc
          readingTime := (wc + 199) / 200
          fileSize := content.length
          fileType := fileExtension
          metadata := { source := none
                        parserTag := some (if md then "markdown".data else "rst".data) } }
      (some doc,
        { m with processedFiles := m.processedFiles + 1
                 totalBytesProcessed := m.totalBytesProcessed + content.length })

/-- The per-file loop of `indexGitHubDocumentation`: process each file, store
a non-`null` document under its id, carry the metrics.  The outer
`catch`-and-`failedFiles++` of the source loop is unreachable because
`processRstFile` catches its own errors, so it has no counterpart here; the
progressive cache saves do not change the in-memory state and are omitted. -/
def indexFiles (extractMd extractRst : Str → Str → ParsedMeta) (cleanMd cleanRst : Str → Str)
    (nowMs : Int) : List (Except Unit Str × Str × Str) → List (Str × Doc) → Metrics →
      List (Str × Doc) × Metrics
  | [], idx, m => (idx, m)
  | f :: rest, idx, m =>
    match processRstFile extractMd extractRst cleanMd cleanRst f.1 f.2.1 f.2.2 nowMs m with
    | (some doc, m') => indexFiles extractMd extractRst cleanMd cleanRst nowMs rest
        (mapSet idx doc.id doc) m'
    | (none, m') => indexFiles extractMd extractRst cleanMd cleanRst nowMs rest idx m'

/-- `generateSyntheticDocuments()`: the three hand-authored FAQ documents.
The long French text bodies are abstracted as the parameters `c1 c2 c3`
(no claim depends on their characters); every structural field — ids,
titles, descriptions, sections, keywords, word counts, and the
`source: 'synthetic'` metadata tag — is transcribed from the source.  The
synthetic objects carry no `fileType` field; that absence is modelled as
the empty string. -/
def generateSyntheticDocuments (c1 c2 c3 : Str) (nowMs : Int) : List Doc :=
  [ { id := "faq_hr_leave_config".data
      filePath := "synthetic/faq_hr_leave_config.rst".data
      fullPath := "synthetic/faq_hr_leave_config.rst".data
      title := "Configuration des congés - Guide complet".data
      description := "Guide complet pour configurer et utiliser le système de congés dans Odoo v17".data
      content := c1
      sectionName := "hr".data
      subsection := "timesheet".data
      keywords := ["congés", "leave", "hr", "timesheet", "vacation", "absence"].map String.data
      lastUpdated := some nowMs
      wordCount := 2500
      readingTime := 13
      fileSize := c1.length
      fileType := []
      metadata := { source := some "synthetic".data, parserTag := none } },
    { id := "faq_sales_workflow".data
      filePath := "synthetic/faq_sales_workflow.rst".data
      fullPath := "synthetic/faq_sales_workflow.rst".data
      title := "Workflow de vente Odoo - Du prospect à la facture".data
      description := "Workflow complet du processus de vente dans Odoo v17".data
      content := c2
      sectionName := "sales".data
      subsection := "crm".data
      keywords := ["sales", "vente", "crm", "devis", "commande", "facture", "prospect"].map String.data
      lastUpdated := some nowMs
      wordCount := 2200
      readingTime := 11
      fileSize := c2.length
      fileType := []
      metadata := { source := some "synthetic".data, parserTag := none } },
    { id := "faq_module_development".data
      filePath := "synthetic/faq_module_development.rst".data
      fullPath := "synthetic/faq_module_development.rst".data
      title := "Développement de modules Odoo - Guide développeur".data
      description := "Guide complet pour développer des modules personnalisés dans Odoo v17".data
      content := c3
      sectionName := "developer".data
      subsection := "modules".data
      keywords := ["module", "développement", "development", "python", "xml", "manifest", "model"].map String.data
      lastUpdated := some nowMs
      wordCount := 3000
      readingTime := 15
      fileSize := c3.length
      fileType := []
      metadata := { source := some "synthetic".data, parserTag := none } } ]

/-- `enrichDocumentationSources()`: add each synthetic document to the index
under its id (they bypass the parser and its minimum-length filter). -/
def enrichDocumentationSources (idx : List (Str × Doc)) (c1 c2 c3 : Str) (nowMs : Int) :
    List (Str × Doc) :=
  (generateSyntheticDocuments c1 c2 c3 nowMs).foldl (fun m d => mapSet m d.id d) idx

/-- The primary snapshot record written by `saveIndexToCache` (the separate
metadata file is informational only and not modelled). -/
structure CacheIndexData where
  version : Str
  odooVersion : Str
  source : Str
  lastUpdate : Option Int
  totalDocuments : Nat
  documents : List (Str × Doc)
deriving DecidableEq

/-- `saveIndexToCache()`: serialize the format-version tag `'4.0'`, the
source tag `'GitHub'`, the Odoo version, `lastUpdate`, the document count,
and `Array.from(index.entries())`. -/
def saveIndexToCache (st : ServiceState) (odooVersion : Str) : CacheIndexData :=
  { version := "4.0".data
    odooVersion := odooVersion
    source := "GitHub".data
    lastUpdate := st.lastUpdate
    totalDocuments := st.documentationIndex.length
    documents := st.documentationIndex }

/-- `loadIndexFromCache()` on a readable snapshot record: accept it exactly
when the version tag is `'4.0'` and the source tag is `'GitHub'`, restoring
`new Map(documents)` and `lastUpdate`; `none` models the rejected /
cache-miss outcome (obsolete tags or unreadable file). -/
def loadIndexFromCache (d : CacheIndexData) : Option (List (Str × Doc) × Option Int) :=
  if d.version = "4.0".data ∧ d.source = "GitHub".data then
    some (mapOfList d.documents, d.lastUpdate)
  else none

/-- A document added by enrichment (tagged `source: 'synthetic'`). -/
def isSyntheticDoc (d : Doc) : Bool := d.metadata.source == some "synthetic".data

/-- The index-store invariant: every stored non-synthetic record passed the
minimum-content-length filter. -/
def contentInvariant (idx : List (Str × Doc)) : Prop :=
  ∀ e ∈ idx, isSyntheticDoc e.2 = false → 100 ≤ e.2.content.length

/-- A property of the ok-value of an `Except` (trivially true on errors). -/
def exceptOk {ε α : Type} (P : α → Prop) : Except ε α → Prop
  | .ok a => P a
  | .error _ => True

/-- The content substrings whose appearance can lower the adaptive score:
the three beginner-tag penalty markers and the four code markers of the
quality adjustments. -/
def penaltyMarkers : List Str :=
  ["advanced", "customize", "override", "class ", "def ", "import ", "from "].map String.data

/-- A neutral document used in concrete evaluations: no term hits, no
recency, mid-size word count. -/
def docAdvanced : Doc :=
  { id := "misc_advanced_topics".data
    filePath := "misc/advanced_topics.rst".data
    fullPath := "misc/advanced_topics.rst".data
    title := "Advanced Topics Overview".data
    description := []
    content := "nothing special here".data
    sectionName := "misc".data
    subsection := []
    keywords := []
    lastUpdated := none
    wordCount := 200
    readingTime := 1
    fileSize := 20
    fileType := ".rst".data
    metadata := { source := none, parserTag := some "rst".data } }

/-- `docAdvanced` after one more occurrence of the query term `advanced` is
appended to its content, all other fields unchanged. -/
def docAdvancedApp : Doc :=
  { docAdvanced with content := docAdvanced.content ++ ' ' :: "advanced".data }

/-- A one-document index used for the concrete query-time evaluations. -/
def sampleSearchState : ServiceState :=
  { documentationIndex := [(docAdvanced.id, docAdvanced)] }

/-- A trivial metadata extractor used to instantiate the abstracted dialect
helpers in concrete evaluations. -/
def metaNone : Str → Str → ParsedMeta := fun _ _ => {}

/-- A 100-character raw file body (exactly at the minimum-content length). -/
def rawSample : Str := List.replicate 100 'a'

/-- The document `processRstFile` produces from `rawSample` under the
trivial extractor and identity cleaner, for the path `a.rst`. -/
def docParsed : Doc :=
  { id := "a".data
    filePath := "a.rst".data
    fullPath := "a.rst".data
    title := []
    description := []
    content := rawSample
    sectionName := []
    subsection := []
    keywords := []
    lastUpdated := some 0
    wordCount := 1
    readingTime := 1
    fileSize := 100
    fileType := ".rst".data
    metadata := { source := none, parserTag := some "rst".data } }

/-! ### Helper lemmas: deduplication and the map model -/

theorem jsSetDedupGo_mem {α : Type} [DecidableEq α] (seen l : List α) (x : α) :
    x ∈ jsSetDedupGo seen l ↔ x ∈ l ∧ x ∉ seen := by
  induction l generalizing seen with
  | nil => simp [jsSetDedupGo]
  | cons a l ih =>
    by_cases ha : a ∈ seen
    · rw [jsSetDedupGo, if_pos ha, ih seen]
      constructor
      · rintro ⟨h1, h2⟩
        exact ⟨List.mem_cons_of_mem a h1, h2⟩
      · rintro ⟨h1, h2⟩
        rcases List.mem_cons.1 h1 with h1 | h1
        · exact absurd (h1 ▸ ha) h2
        · exact ⟨h1, h2⟩
    · rw [jsSetDedupGo, if_neg ha]
      constructor
      · intro hx
        rcases List.mem_cons.1 hx with hx | hx
        · exact ⟨hx ▸ List.mem_cons_self a l, hx ▸ ha⟩
        · have := (ih (a :: seen)).1 hx
          exact ⟨List.mem_cons_of_mem a this.1,
            fun hs => this.2 (List.mem_cons_of_mem a hs)⟩
      · rintro ⟨h1, h2⟩
        rcases List.mem_cons.1 h1 with h1 | h1
        · exact h1 ▸ List.mem_cons_self a _
        · by_cases hxa : x = a
          · exact hxa ▸ List.mem_cons_self a _
          · exact List.mem_cons_of_mem a ((ih (a :: seen)).2
              ⟨h1, fun hs => (List.mem_cons.1 hs).elim hxa h2⟩)

theorem jsSetDedup_mem {α : Type} [DecidableEq α] (l : List α) (x : α) :
    x ∈ jsSetDedup l ↔ x ∈ l := by
  unfold jsSetDedup
  rw [jsSetDedupGo_mem]
  simp

theorem jsSetDedupGo_nodup {α : Type} [DecidableEq α] (seen l : List α) :
    (jsSetDedupGo seen l).Nodup := by
  induction l generalizing seen with
  | nil => simp [jsSetDedupGo]
  | cons a l ih =>
    by_cases ha : a ∈ seen
    · rw [jsSetDedupGo, if_pos ha]
      exact ih seen
    · rw [jsSetDedupGo, if_neg ha]
      refine List.nodup_cons.2 ⟨fun hmem => ?_, ih (a :: seen)⟩
      exact ((jsSetDedupGo_mem (a :: seen) l a).1 hmem).2 (List.mem_cons_self a seen)

theorem jsSetDedup_nodup {α : Type} [DecidableEq α] (l : List α) :
    (jsSetDedup l).Nodup := jsSetDedupGo_nodup [] l

theorem mem_mapSet {β : Type} (m : List (Str × β)) (k : Str) (v : β) (e : Str × β)
    (h : e ∈ mapSet m k v) : e ∈ m ∨ e = (k, v) := by
  unfold mapSet at h
  by_cases hc : m.any (fun e => e.1 == k)
  · rw [if_pos hc] at h
    obtain ⟨e0, he0, heq⟩ := List.mem_map.1 h
    by_cases hk : e0.1 == k
    · rw [if_pos hk] at heq
      exact Or.inr heq.symm
    · rw [if_neg hk] at heq
      exact Or.inl (heq ▸ he0)
  · rw [if_neg hc] at h
    rcases List.mem_append.1 h with h1 | h1
    · exact Or.inl h1
    · exact Or.inr (by simpa using h1)

theorem mem_foldl_mapSet {β : Type} (l acc : List (Str × β)) (e : Str × β)
    (h : e ∈ l.foldl (fun m p => mapSet m p.1 p.2) acc) : e ∈ acc ∨ e ∈ l := by
  induction l generalizing acc with
  | nil => exact Or.inl (by simpa using h)
  | cons p l ih =>
    rw [List.foldl_cons] at h
    rcases ih (mapSet acc p.1 p.2) h with h1 | h1
    · rcases mem_mapSet acc p.1 p.2 e h1 with h2 | h2
      · exact Or.inl h2
      · exact Or.inr (by simp [h2])
    · exact Or.inr (List.mem_cons_of_mem p h1)

theorem any_key_eq_false {β : Type} (m : List (Str × β)) (k : Str)
    (h : k ∉ m.map Prod.fst) : m.any (fun e => e.1 == k) = false := by
  rw [List.any_eq_false]
  intro e he
  simp only [beq_iff_eq]
  intro hek
  exact h (List.mem_map.2 ⟨e, he, hek⟩)

theorem foldl_mapSet_append {β : Type} (l : List (Str × β)) :
    ∀ acc : List (Str × β), (acc.map Prod.fst ++ l.map Prod.fst).Nodup →
      l.foldl (fun m p => mapSet m p.1 p.2) acc = acc ++ l := by
  induction l with
  | nil => intro acc _; simp
  | cons p l ih =>
    intro acc h
    obtain ⟨k, v⟩ := p
    have hk : k ∉ acc.map Prod.fst := by
      intro hmem
      exact (List.nodup_append.1 h).2.2 hmem
        (List.mem_map.2 ⟨(k, v), List.mem_cons_self _ _, rfl⟩)
    have hset : mapSet acc k v = acc ++ [(k, v)] := by
      unfold mapSet
      rw [any_key_eq_false acc k hk]
      simp
    rw [List.foldl_cons, hset, ih (acc ++ [(k, v)]) (by simpa using h)]
    simp

theorem mapOfList_eq_self {β : Type} (l : List (Str × β)) (h : (l.map Prod.fst).Nodup) :
    mapOfList l = l := by
  unfold mapOfList
  simpa using foldl_mapSet_append l [] (by simpa using h)

/-! ### Helper lemmas: prefixes, occurrence counting, case mapping -/

theorem isPrefixOf_true_iff (p s : Str) : p.isPrefixOf s = true ↔ p <+: s := by
  simp

theorem drop_append_of_le (n : Nat) (s t : Str) (h : n ≤ s.length) :
    (s ++ t).drop n = s.drop n ++ t := by
  conv_lhs => rw [← List.take_append_drop n s]
  rw [List.append_assoc, List.drop_left' (by rw [List.length_take]; omega)]

theorem prefix_of_append_of_le (p s t : Str) (h : p <+: s ++ t) (hl : p.length ≤ s.length) :
    p <+: s :=
  List.prefix_of_prefix_length_le h (List.prefix_append s t) hl

theorem countOccF_congr (pat : Str) :
    ∀ f1 f2 : Nat, ∀ s : Str, s.length < f1 → s.length < f2 →
      countOccF pat f1 s = countOccF pat f2 s := by
  intro f1
  induction f1 with
  | zero => intro f2 s h1 _; omega
  | succ g ih =>
    intro f2 s h1 h2
    cases f2 with
    | zero => omega
    | succ h =>
      by_cases hp : pat.length = 0
      · cases s <;> simp [countOccF, hp]
      · cases s with
        | nil => simp [countOccF, hp]
        | cons c t =>
          simp only [countOccF, if_neg hp]
          by_cases hpre : pat.isPrefixOf (c :: t)
          · rw [if_pos hpre, if_pos hpre]
            have hd1 : ((c :: t).drop pat.length).length < g := by
              simp only [List.length_drop, List.length_cons] at *
              omega
            have hd2 : ((c :: t).drop pat.length).length < h := by
              simp only [List.length_drop, List.length_cons] at *
              omega
            rw [ih h _ hd1 hd2]
          · rw [if_neg hpre, if_neg hpre]
            exact ih h t (by simp only [List.length_cons] at h1; omega)
              (by simp only [List.length_cons] at h2; omega)

theorem countOcc_nil (pat : Str) (hp : pat ≠ []) : countOcc pat [] = 0 := by
  have : ¬ pat.length = 0 := by simpa [List.length_eq_zero] using hp
  simp [countOcc, countOccF, this]

theorem countOcc_cons_pos (pat : Str) (hp : pat ≠ []) (c : Char) (t : Str)
    (hpre : pat.isPrefixOf (c :: t)) :
    countOcc pat (c :: t) = 1 + countOcc pat ((c :: t).drop pat.length) := by
  have hp' : ¬ pat.length = 0 := by simpa [List.length_eq_zero] using hp
  show countOccF pat ((c :: t).length + 1) (c :: t) = _
  rw [show (c :: t).length + 1 = (t.length + 1) + 1 from by simp]
  simp only [countOccF, if_neg hp', if_pos hpre]
  have hlt : ((c :: t).drop pat.length).length < t.length + 1 := by
    simp only [List.length_drop, List.length_cons]
    omega
  rw [countOccF_congr pat (t.length + 1) (((c :: t).drop pat.length).length + 1) _ hlt
    (Nat.lt_succ_self _)]
  rfl

theorem countOcc_cons_neg (pat : Str) (hp : pat ≠ []) (c : Char) (t : Str)
    (hpre : ¬ pat.isPrefixOf (c :: t)) :
    countOcc pat (c :: t) = countOcc pat t := by
  have hp' : ¬ pat.length = 0 := by simpa [List.length_eq_zero] using hp
  show countOccF pat ((c :: t).length + 1) (c :: t) = _
  rw [show (c :: t).length + 1 = (t.length + 1) + 1 from by simp]
  simp only [countOccF, if_neg hp', if_neg hpre]
  rfl

theorem countOcc_eq_zero_of_short (pat : Str) (hp : pat ≠ []) :
    ∀ s : Str, s.length < pat.length → countOcc pat s = 0 := by
  intro s
  induction s with
  | nil => intro _; exact countOcc_nil pat hp
  | cons c t ih =>
    intro h
    have hpre : ¬ pat.isPrefixOf (c :: t) := by
      intro hcontr
      have := ((isPrefixOf_true_iff pat (c :: t)).1 hcontr).length_le
      omega
    rw [countOcc_cons_neg pat hp c t hpre]
    exact ih (by simp only [List.length_cons] at h; omega)

theorem countOcc_empty_pat (s : Str) : countOcc [] s = s.length + 1 := by
  cases s <;> simp [countOcc, countOccF]

theorem countOcc_le_append (pat : Str) : ∀ s t : Str, countOcc pat s ≤ countOcc pat (s ++ t) := by
  by_cases hp : pat = []
  · intro s t
    subst hp
    rw [countOcc_empty_pat, countOcc_empty_pat]
    simp only [List.length_append]
    omega
  · have hp1 : 1 ≤ pat.length := by
      cases pat with
      | nil => exact absurd rfl hp
      | cons a b => simp
    have main : ∀ n : Nat, ∀ s t : Str, s.length ≤ n →
        countOcc pat s ≤ countOcc pat (s ++ t) := by
      intro n
      induction n with
      | zero =>
        intro s t hs
        rw [List.length_eq_zero.1 (Nat.le_zero.1 hs), countOcc_nil pat hp]
        exact Nat.zero_le _
      | succ n ih =>
        intro s t hs
        cases s with
        | nil =>
          rw [countOcc_nil pat hp]
          exact Nat.zero_le _
        | cons c s' =>
          by_cases hpre : pat.isPrefixOf (c :: s')
          · have hlen : pat.length ≤ (c :: s').length :=
              ((isPrefixOf_true_iff pat (c :: s')).1 hpre).length_le
            have hpre2 : pat.isPrefixOf (c :: (s' ++ t)) := by
              rw [isPrefixOf_true_iff] at hpre ⊢
              exact hpre.trans (List.prefix_append (c :: s') t)
            rw [show (c :: s') ++ t = c :: (s' ++ t) from rfl]
            rw [countOcc_cons_pos pat hp c s' hpre]
            rw [countOcc_cons_pos pat hp c (s' ++ t) hpre2]
            have hdrop : (c :: (s' ++ t)).drop pat.length
                = (c :: s').drop pat.length ++ t := by
              rw [show c :: (s' ++ t) = (c :: s') ++ t from rfl]
              exact drop_append_of_le pat.length (c :: s') t hlen
            rw [hdrop]
            have hrec : ((c :: s').drop pat.length).length ≤ n := by
              simp only [List.length_drop, List.length_cons] at hs ⊢
              omega
            exact Nat.add_le_add_left (ih _ t hrec) 1
          · by_cases hpre2 : pat.isPrefixOf ((c :: s') ++ t)
            · have hshort : (c :: s').length < pat.length := by
                by_contra hge
                push_neg at hge
                exact hpre ((isPrefixOf_true_iff pat (c :: s')).2
                  (prefix_of_append_of_le pat (c :: s') t
                    ((isPrefixOf_true_iff pat ((c :: s') ++ t)).1 hpre2) hge))
              rw [countOcc_eq_zero_of_short pat hp _ hshort]
              exact Nat.zero_le _
            · have hpre2' : ¬ pat.isPrefixOf (c :: (s' ++ t)) := fun hcon => hpre2 hcon
              rw [show (c :: s') ++ t = c :: (s' ++ t) from rfl]
              rw [countOcc_cons_neg pat hp c s' hpre]
              rw [countOcc_cons_neg pat hp c (s' ++ t) hpre2']
              exact ih s' t (by simp only [List.length_cons] at hs; omega)
    intro s t
    exact main s.length s t (Nat.le_refl _)

theorem jsIncludes_true_iff (hay nd : Str) : jsIncludes hay nd = true ↔ nd <:+: hay := by
  simp [jsIncludes]

theorem jsIncludes_append_right (hay x nd : Str) (h : jsIncludes hay nd = true) :
    jsIncludes (hay ++ x) nd = true := by
  rw [jsIncludes_true_iff] at h ⊢
  exact h.trans ⟨[], x, by simp⟩

theorem char_toNat_ofNat_valid (m : Nat) (h : m < 55296) : (Char.ofNat m).toNat = m := by
  unfold Char.ofNat
  rw [dif_pos (Or.inl h)]
  rfl

theorem char_toLower_idem (c : Char) : (c.toLower).toLower = c.toLower := by
  show Char.toLower (Char.toLower c) = Char.toLower c
  unfold Char.toLower
  by_cases h : c.toNat ≥ 65 ∧ c.toNat ≤ 90
  · rw [if_pos h]
    have hv : (Char.ofNat (c.toNat + 32)).toNat = c.toNat + 32 :=
      char_toNat_ofNat_valid _ (by omega)
    rw [if_neg (by rw [hv]; omega)]
  · rw [if_neg h, if_neg h]

theorem toLowerL_append (a b : Str) : toLowerL (a ++ b) = toLowerL a ++ toLowerL b := by
  simp [toLowerL]

theorem toLowerL_fixed_of_mem (s : Str) (c : Char) (hc : c ∈ toLowerL s) :
    Char.toLower c = c := by
  obtain ⟨c0, _, rfl⟩ := List.mem_map.1 hc
  exact char_toLower_idem c0

theorem toLowerL_idem (s : Str) : toLowerL (toLowerL s) = toLowerL s := by
  simp only [toLowerL, List.map_map]
  exact List.map_congr_left (fun c _ => char_toLower_idem c)

/-! ### Helper lemmas: monotonicity of the scoring components -/

theorem contentFreqBonus_nonneg (n : Nat) : 0 ≤ contentFreqBonus n := by
  unfold contentFreqBonus
  split
  · apply le_min
    · apply mul_nonneg _ (by norm_num)
      apply Real.log_nonneg
      have : (0 : ℝ) ≤ (n : ℝ) := Nat.cast_nonneg n
      linarith
    · norm_num
  · exact le_refl 0

theorem contentFreqBonus_mono {m n : Nat} (h : m ≤ n) :
    contentFreqBonus m ≤ contentFreqBonus n := by
  by_cases hm : 0 < m
  · have hn : 0 < n := lt_of_lt_of_le hm h
    unfold contentFreqBonus
    rw [if_pos hm, if_pos hn]
    apply min_le_min _ (le_refl _)
    apply mul_le_mul_of_nonneg_right _ (by norm_num)
    apply Real.log_le_log (by positivity)
    have : (m : ℝ) ≤ (n : ℝ) := Nat.cast_le.2 h
    linarith
  · have hment : contentFreqBonus m = 0 := by
      unfold contentFreqBonus
      rw [if_neg hm]
    rw [hment]
    exact contentFreqBonus_nonneg n

theorem ite_le_ite_bool (c : ℝ) (hc : 0 ≤ c) (b b' : Bool) (h : b = true → b' = true) :
    (if b then c else 0) ≤ (if b' then c else 0) := by
  cases b
  · cases b' <;> simp [hc]
  · rw [h rfl]

theorem ite_le_ite_bool_int (c : Int) (hc : 0 ≤ c) (b b' : Bool) (h : b = true → b' = true) :
    (if b then c else 0) ≤ (if b' then c else 0) := by
  cases b
  · cases b' <;> simp [hc]
  · rw [h rfl]

theorem or_imp_bool {a b a' b' : Bool} (ha : a = true → a' = true)
    (hb : b = true → b' = true) : (a || b) = true → (a' || b') = true := by
  cases a <;> cases b <;> simp_all

theorem foldl_add_eq_add_sum {M : Type} [AddCommMonoid M] {α : Type} (f : α → M)
    (l : List α) (c : M) : l.foldl (fun acc x => acc + f x) c = c + (l.map f).sum := by
  induction l generalizing c with
  | nil => simp
  | cons a l ih => simp [ih, add_assoc]

theorem jsIncludes_lower_append (content app nd : Str)
    (h : jsIncludes (toLowerL content) nd = true) :
    jsIncludes (toLowerL (content ++ app)) nd = true := by
  rw [toLowerL_append]
  exact jsIncludes_append_right _ _ _ h

theorem docWith_content (doc : Doc) (c' : Str) :
    ({doc with content := c'} : Doc).content = c' := rfl

theorem docWith_title (doc : Doc) (c' : Str) :
    ({doc with content := c'} : Doc).title = doc.title := rfl

theorem docWith_description (doc : Doc) (c' : Str) :
    ({doc with content := c'} : Doc).description = doc.description := rfl

theorem docWith_sectionName (doc : Doc) (c' : Str) :
    ({doc with content := c'} : Doc).sectionName = doc.sectionName := rfl

theorem docWith_subsection (doc : Doc) (c' : Str) :
    ({doc with content := c'} : Doc).subsection = doc.subsection := rfl

theorem docWith_wordCount (doc : Doc) (c' : Str) :
    ({doc with content := c'} : Doc).wordCount = doc.wordCount := rfl

theorem docWith_lastUpdated (doc : Doc) (c' : Str) :
    ({doc with content := c'} : Doc).lastUpdated = doc.lastUpdated := rfl

theorem termScoreVal_le_append (doc : Doc) (app term : Str) :
    termScoreVal doc term ≤ termScoreVal {doc with content := doc.content ++ app} term := by
  unfold termScoreVal
  simp only [docWith_content, docWith_title, docWith_description, docWith_sectionName,
    docWith_subsection]
  have h3 : contentFreqBonus (countOcc term (toLowerL doc.content))
      ≤ contentFreqBonus (countOcc term (toLowerL (doc.content ++ app))) := by
    rw [toLowerL_append]
    exact contentFreqBonus_mono (countOcc_le_append term _ _)
  exact add_le_add (add_le_add (add_le_add (add_le_add (le_refl _) (le_refl _)) h3)
    (le_refl _)) (le_refl _)

theorem typeBonusStep_le_append (doc : Doc) (app ty : Str)
    (hmark : ∀ mk ∈ penaltyMarkers,
      jsIncludes (toLowerL (doc.content ++ app)) mk = jsIncludes (toLowerL doc.content) mk) :
    typeBonusStep doc ty ≤ typeBonusStep {doc with content := doc.content ++ app} ty := by
  have hinc : ∀ nd : Str, jsIncludes (toLowerL doc.content) nd = true →
      jsIncludes (toLowerL (doc.content ++ app)) nd = true :=
    fun nd => jsIncludes_lower_append doc.content app nd
  unfold typeBonusStep
  simp only [docWith_content, docWith_title, docWith_sectionName]
  by_cases h1 : ty = "hr".data
  · rw [if_pos h1, if_pos h1]
  rw [if_neg h1, if_neg h1]
  by_cases h2 : ty = "sales".data
  · rw [if_pos h2, if_pos h2]
  rw [if_neg h2, if_neg h2]
  by_cases h3 : ty = "accounting".data
  · rw [if_pos h3, if_pos h3]
  rw [if_neg h3, if_neg h3]
  by_cases h4 : ty = "development".data
  · rw [if_pos h4, if_pos h4]
    exact ite_le_ite_bool_int 100 (by norm_num) _ _
      (or_imp_bool (or_imp_bool (or_imp_bool (fun h => h) (hinc _)) (hinc _)) (hinc _))
  rw [if_neg h4, if_neg h4]
  by_cases h5 : ty = "configuration".data
  · rw [if_pos h5, if_pos h5]
    exact ite_le_ite_bool_int 80 (by norm_num) _ _
      (or_imp_bool (or_imp_bool (fun h => h) (fun h => h)) (hinc _))
  rw [if_neg h5, if_neg h5]
  by_cases h6 : ty = "beginner".data
  · rw [if_pos h6, if_pos h6]
    have e1 : jsIncludes (toLowerL (doc.content ++ app)) "advanced".data
        = jsIncludes (toLowerL doc.content) "advanced".data := hmark _ (by decide)
    have e2 : jsIncludes (toLowerL (doc.content ++ app)) "customize".data
        = jsIncludes (toLowerL doc.content) "customize".data := hmark _ (by decide)
    have e3 : jsIncludes (toLowerL (doc.content ++ app)) "override".data
        = jsIncludes (toLowerL doc.content) "override".data := hmark _ (by decide)
    rw [e1, e2, e3]
    apply add_le_add _ (le_refl _)
    exact ite_le_ite_bool_int 60 (by norm_num) _ _
      (or_imp_bool (or_imp_bool (fun h => h) (fun h => h)) (hinc _))
  rw [if_neg h6, if_neg h6]
  by_cases h7 : ty = "technical".data
  · rw [if_pos h7, if_pos h7]
    exact ite_le_ite_bool_int 80 (by norm_num) _ _
      (or_imp_bool (or_imp_bool (hinc _) (hinc _)) (hinc _))
  rw [if_neg h7, if_neg h7]

theorem getTypeSpecificBonus_le_append (doc : Doc) (app : Str) (qt : List Str)
    (hmark : ∀ mk ∈ penaltyMarkers,
      jsIncludes (toLowerL (doc.content ++ app)) mk = jsIncludes (toLowerL doc.content) mk) :
    getTypeSpecificBonus doc qt ≤ getTypeSpecificBonus {doc with content := doc.content ++ app} qt := by
  unfold getTypeSpecificBonus
  rw [foldl_add_eq_add_sum, foldl_add_eq_add_sum]
  apply add_le_add (le_refl 0)
  apply List.sum_le_sum
  intro ty _
  exact typeBonusStep_le_append doc app ty hmark

theorem applyQualityAdjustments_append_eq (doc : Doc) (app : Str) (qt : List Str) (now : Int)
    (hmark : ∀ mk ∈ penaltyMarkers,
      jsIncludes (toLowerL (doc.content ++ app)) mk = jsIncludes (toLowerL doc.content) mk) :
    applyQualityAdjustments {doc with content := doc.content ++ app} qt now
      = applyQualityAdjustments doc qt now := by
  unfold applyQualityAdjustments
  simp only [docWith_content, docWith_title, docWith_sectionName, docWith_wordCount,
    docWith_lastUpdated]
  have e1 : jsIncludes (toLowerL (doc.content ++ app)) "class ".data
      = jsIncludes (toLowerL doc.content) "class ".data := hmark _ (by decide)
  have e2 : jsIncludes (toLowerL (doc.content ++ app)) "def ".data
      = jsIncludes (toLowerL doc.content) "def ".data := hmark _ (by decide)
  have e3 : jsIncludes (toLowerL (doc.content ++ app)) "import ".data
      = jsIncludes (toLowerL doc.content) "import ".data := hmark _ (by decide)
  have e4 : jsIncludes (toLowerL (doc.content ++ app)) "from ".data
      = jsIncludes (toLowerL doc.content) "from ".data := hmark _ (by decide)
  rw [e1, e2, e3, e4]

theorem ctxBonusStep_le_append (doc : Doc) (app t : Str) :
    ctxBonusStep doc t ≤ ctxBonusStep {doc with content := doc.content ++ app} t := by
  unfold ctxBonusStep
  simp only [docWith_content, docWith_title]
  exact ite_le_ite_bool 30 (by norm_num) _ _
    (or_imp_bool (fun h => h) (jsIncludes_lower_append doc.content app _))

theorem ctxBonusVal_le_append (doc : Doc) (app : Str) (ctx : List Str) :
    ctxBonusVal doc ctx ≤ ctxBonusVal {doc with content := doc.content ++ app} ctx := by
  unfold ctxBonusVal
  rw [foldl_add_eq_add_sum, foldl_add_eq_add_sum]
  apply add_le_add (le_refl 0)
  apply List.sum_le_sum
  intro t _
  exact ctxBonusStep_le_append doc app t

theorem calcVal_le_append (doc : Doc) (app : Str) (terms : List Str) (q : Str)
    (qt ctx : List Str) (now : Int)
    (hmark : ∀ mk ∈ penaltyMarkers,
      jsIncludes (toLowerL (doc.content ++ app)) mk = jsIncludes (toLowerL doc.content) mk) :
    calculateAdaptiveScoreVal doc terms q qt ctx now
      ≤ calculateAdaptiveScoreVal {doc with content := doc.content ++ app} terms q qt ctx now := by
  unfold calculateAdaptiveScoreVal
  simp only [docWith_content]
  apply max_le_max (le_refl (0 : ℝ))
  apply min_le_min _ (le_refl (1000 : ℝ))
  have hbase : ((terms.map (termScoreVal doc)).sum : ℝ)
      ≤ (terms.map (termScoreVal {doc with content := doc.content ++ app})).sum := by
    apply List.sum_le_sum
    intro t _
    exact termScoreVal_le_append doc app t
  have hphrase : ((if jsIncludes (toLowerL doc.content) (toLowerL q) then (80 : ℝ) else 0))
      ≤ (if jsIncludes (toLowerL (doc.content ++ app)) (toLowerL q) then (80 : ℝ) else 0) :=
    ite_le_ite_bool 80 (by norm_num) _ _ (jsIncludes_lower_append doc.content app _)
  have htype : ((getTypeSpecificBonus doc qt : Int) : ℝ)
      ≤ ((getTypeSpecificBonus {doc with content := doc.content ++ app} qt : Int) : ℝ) := by
    exact_mod_cast getTypeSpecificBonus_le_append doc app qt hmark
  have hctx := ctxBonusVal_le_append doc app ctx
  have hqual : ((applyQualityAdjustments doc qt now : Int) : ℝ)
      ≤ ((applyQualityAdjustments {doc with content := doc.content ++ app} qt now : Int) : ℝ) := by
    rw [applyQualityAdjustments_append_eq doc app qt now hmark]
  exact add_le_add (add_le_add (add_le_add (add_le_add hbase hphrase) htype) hctx) hqual

theorem mapM_termScoreE_of_safe (doc : Doc) (terms : List Str)
    (h : terms.all isRegexSafe = true) :
    terms.mapM (termScoreE doc) = Except.ok (terms.map (termScoreVal doc)) := by
  induction terms with
  | nil => rfl
  | cons t ts ih =>
    rw [List.all_cons, Bool.and_eq_true] at h
    rw [List.mapM_cons]
    have hhead : termScoreE doc t = Except.ok (termScoreVal doc t) := by
      unfold termScoreE
      rw [if_pos h.1]
    rw [hhead, ih h.2, List.map_cons]
    rfl

theorem calcE_eq_ok_of_safe (doc : Doc) (terms : List Str) (q : Str) (qt ctx : List Str)
    (now : Int) (h : terms.all isRegexSafe = true) :
    calculateAdaptiveScoreE doc terms q qt ctx now
      = Except.ok (calculateAdaptiveScoreVal doc terms q qt ctx now) := by
  unfold calculateAdaptiveScoreE calculateAdaptiveScoreVal
  rw [mapM_termScoreE_of_safe doc terms h]
  rfl

/-! ### C3: score monotonicity under an added term occurrence -/

/-- C3 counterexample: the claim "adding one additional occurrence of a
query term to the document's content, holding all other document fields
equal, never decreases the document's computed adaptive score" is false at
a concrete input.  For the query `how advanced` (classified `beginner`) and
the document `docAdvanced` (titled `Advanced Topics Overview`, content not
yet containing `advanced`), appending one occurrence of the query term
`advanced` to the content adds the logarithmic content bonus
`log 2 * 15 ≈ 10.4` but newly triggers the beginner-tag penalty −30: the
adaptive score strictly drops from 105 to `75 + log 2 * 15 ≈ 85.4`. -/
theorem adaptive_score_decreases_on_added_occurrence :
    preprocessSearchTerms "how advanced".data
      = Except.ok ["how".data, "advanced".data] ∧
    calculateAdaptiveScoreE docAdvanced ["how".data, "advanced".data]
        "how advanced".data (detectQueryType "how advanced".data) [] 0
      = Except.ok 105 ∧
    calculateAdaptiveScoreE docAdvancedApp ["how".data, "advanced".data]
        "how advanced".data (detectQueryType "how advanced".data) [] 0
      = Except.ok (75 + Real.log 2 * 15) ∧
    (75 + Real.log 2 * 15 : ℝ) < 105 := by
  have hqt : detectQueryType "how advanced".data = ["beginner".data] := by decide
  have hsafe : (["how".data, "advanced".data] : List Str).all isRegexSafe = true := by decide
  have hlog1 : Real.log 2 < 0.6931471808 := Real.log_two_lt_d9
  have hlog2 : (0.6931471803 : ℝ) < Real.log 2 := Real.log_two_gt_d9
  have b1 : termScoreVal docAdvanced "how".data = 0 := by
    unfold termScoreVal
    simp +decide [contentFreqBonus]
  have b2 : termScoreVal docAdvanced "advanced".data = 100 := by
    unfold termScoreVal
    simp +decide [contentFreqBonus]
  have a1 : termScoreVal docAdvancedApp "how".data = 0 := by
    unfold termScoreVal
    simp +decide [contentFreqBonus]
  have a2 : termScoreVal docAdvancedApp "advanced".data = 100 + Real.log 2 * 15 := by
    have hc : countOcc "advanced".data (toLowerL docAdvancedApp.content) = 1 := by decide
    unfold termScoreVal
    simp +decide [hc, contentFreqBonus]
    rw [show (1 + 1 : ℝ) = 2 by norm_num]
    exact min_eq_left (by nlinarith)
  refine ⟨rfl, ?_, ?_, by nlinarith⟩
  · rw [hqt, calcE_eq_ok_of_safe _ _ _ _ _ _ hsafe]
    unfold calculateAdaptiveScoreVal
    rw [List.map_cons, List.map_cons, List.map_nil, b1, b2]
    rw [show getTypeSpecificBonus docAdvanced ["beginner".data] = 0 from by decide]
    rw [show applyQualityAdjustments docAdvanced ["beginner".data] 0 = 5 from by decide]
    rw [show ctxBonusVal docAdvanced [] = 0 from rfl]
    simp +decide
    norm_num
  · rw [hqt, calcE_eq_ok_of_safe _ _ _ _ _ _ hsafe]
    unfold calculateAdaptiveScoreVal
    rw [List.map_cons, List.map_cons, List.map_nil, a1, a2]
    rw [show getTypeSpecificBonus docAdvancedApp ["beginner".data] = -30 from by decide]
    rw [show applyQualityAdjustments docAdvancedApp ["beginner".data] 0 = 5 from by decide]
    rw [show ctxBonusVal docAdvancedApp [] = 0 from rfl]
    simp +decide
    rw [min_eq_left (by nlinarith), max_eq_right (by nlinarith)]
    ring

/-- C3 (amended): adding one additional occurrence of a query term to the
document's content (holding all other fields equal) never decreases the
adaptive score, provided the appended occurrence does not newly introduce or
remove any of the penalty-trigger substrings (`advanced`, `customize`,
`override` for the beginner-tag penalty; `class `, `def `, `import `,
`from ` for the code-marker penalty), and the query's preprocessing returns
a term list (it does not throw, see C7) whose terms are free of regex
metacharacters so that the score is defined at all (see C1): all
other content-dependent score components — the logarithmic content
frequency bonus, the exact-phrase bonus, the positive type-specific and
contextual bonuses — are monotone under appending. -/
theorem adaptive_score_monotone_without_new_penalty_markers
    (doc : Doc) (query term : Str) (terms ctx : List Str) (now : Int)
    (hpre : preprocessSearchTerms query = Except.ok terms)
    (hterm : term ∈ terms)
    (hsafe : terms.all isRegexSafe = true)
    (hmark : ∀ mk ∈ penaltyMarkers,
      jsIncludes (toLowerL (doc.content ++ ' ' :: term)) mk
        = jsIncludes (toLowerL doc.content) mk) :
    ∃ s1 s2 : ℝ,
      calculateAdaptiveScoreE doc terms query
          (detectQueryType query) ctx now = Except.ok s1 ∧
      calculateAdaptiveScoreE {doc with content := doc.content ++ ' ' :: term}
          terms query (detectQueryType query) ctx now
        = Except.ok s2 ∧
      s1 ≤ s2 := by
  refine ⟨_, _, calcE_eq_ok_of_safe _ _ _ _ _ _ hsafe,
    calcE_eq_ok_of_safe _ _ _ _ _ _ hsafe, ?_⟩
  exact calcVal_le_append doc (' ' :: term) terms query
    (detectQueryType query) ctx now hmark

/-- Witness for the amended C3 at a concrete input: query `sales`, whose
returned term list is its own token plus the synonym expansions, the term
`sales`, and the document `docAdvanced`, whose content contains no penalty
marker before or after the append. -/
theorem adaptive_score_monotone_witness :
    (preprocessSearchTerms "sales".data = Except.ok
      ["sales".data, "vente".data, "sell".data, "customer".data, "commercial".data]) ∧
    ("sales".data ∈
      ["sales".data, "vente".data, "sell".data, "customer".data, "commercial".data]) ∧
    (∃ s1 s2 : ℝ,
      calculateAdaptiveScoreE docAdvanced
          ["sales".data, "vente".data, "sell".data, "customer".data, "commercial".data]
          "sales".data (detectQueryType "sales".data) [] 0 = Except.ok s1 ∧
      calculateAdaptiveScoreE {docAdvanced with
            content := docAdvanced.content ++ ' ' :: "sales".data}
          ["sales".data, "vente".data, "sell".data, "customer".data, "commercial".data]
          "sales".data (detectQueryType "sales".data) [] 0 = Except.ok s2 ∧
      s1 ≤ s2) :=
  ⟨rfl, by decide, adaptive_score_monotone_without_new_penalty_markers docAdvanced
    "sales".data "sales".data
    ["sales".data, "vente".data, "sell".data, "customer".data, "commercial".data]
    [] 0 rfl (by decide) (by decide) (by decide)⟩
theorem except_bind_ok {ε α β : Type} (a : α) (f : α → Except ε β) :
    (Except.ok a : Except ε α) >>= f = f a := rfl

theorem mem_insertByScore (h : SearchHit) (l : List SearchHit) (x : SearchHit) :
    x ∈ insertByScore h l ↔ x = h ∨ x ∈ l := by
  induction l with
  | nil => simp [insertByScore]
  | cons h2 t ih =>
    unfold insertByScore
    split
    · simp [List.mem_cons]
    · simp only [List.mem_cons, ih]
      tauto

theorem mem_sortByScoreDesc (l : List SearchHit) (x : SearchHit) :
    x ∈ sortByScoreDesc l ↔ x ∈ l := by
  unfold sortByScoreDesc
  induction l with
  | nil => simp
  | cons h t ih =>
    rw [List.foldr_cons, mem_insertByScore]
    simp [ih]

theorem scoreEntries_doc_mem (terms : List Str) (query : Str)
    (qt : List Str) (opts : SearchOptions) (now : Int) :
    ∀ entries hits, scoreEntries entries terms query qt opts now = Except.ok hits →
      ∀ hit ∈ hits, ∃ e ∈ entries, hit.doc = e.2 := by
  intro entries
  induction entries with
  | nil =>
    intro hits heq hit hmem
    unfold scoreEntries at heq
    cases heq
    cases hmem
  | cons p rest ih =>
    intro hits heq hit hmem
    obtain ⟨k, d⟩ := p
    unfold scoreEntries at heq
    split at heq
    · obtain ⟨e, he, hd⟩ := ih hits heq hit hmem
      exact ⟨e, List.mem_cons_of_mem (k, d) he, hd⟩
    · cases hc : calculateAdaptiveScoreE d terms query qt opts.contextualTerms now with
      | error err => rw [hc] at heq; cases heq
      | ok score =>
        rw [hc, except_bind_ok] at heq
        cases ht : scoreEntries rest terms query qt opts now with
        | error err => rw [ht] at heq; cases heq
        | ok tail =>
          rw [ht, except_bind_ok] at heq
          split at heq
          · cases heq
            rcases List.mem_cons.1 hmem with hx | hx
            · exact ⟨(k, d), List.mem_cons_self _ _, by rw [hx]⟩
            · obtain ⟨e, he, hd⟩ := ih tail ht hit hx
              exact ⟨e, List.mem_cons_of_mem (k, d) he, hd⟩
          · cases heq
            obtain ⟨e, he, hd⟩ := ih hits ht hit hmem
            exact ⟨e, List.mem_cons_of_mem (k, d) he, hd⟩

/-! ### C1, C2, C10: the public search operation -/

/-- C1 (code bug): the claim that `searchDocumentation` returns a value on
every well-typed string query — including queries whose tokens contain
regular-expression metacharacters — is contradicted by the code.  The
per-term scoring constructs `new RegExp(term, 'g')` from the raw token, so
the query `(((` (one token of length 3, kept by the length filter, whose threshold of 2 it exceeds)
makes `new RegExp` throw a `SyntaxError` (unterminated group) at the first
scored document, and no `try`/`catch` in `searchDocumentation` intercepts
it: the exception propagates to the external caller.  In the model: the
search on a one-document index errors instead of returning a value. -/
theorem searchDocumentation_regex_error :
    searchDocumentation sampleSearchState "(((".data {} 0 = Except.error () := rfl

/-- C2: every result in the list returned by `searchDocumentation` has score
strictly greater than 10, for every query and every options object
(including `minScore = 0`): the returned list is a truncation of
`results.filter(doc => doc.score > 10)`, the fixed internal quality floor
applied after the caller-supplied `minScore` filter. -/
theorem search_results_respect_quality_floor (st : ServiceState) (query : Str)
    (opts : SearchOptions) (now : Int) :
    exceptOk (fun r => ∀ hit ∈ r.1.results, (10 : ℝ) < hit.score)
      (searchDocumentation st query opts now) := by
  cases hpre : preprocessSearchTerms query with
  | error e => simp [searchDocumentation, hpre, exceptOk]
  | ok searchTerms =>
    simp only [searchDocumentation, hpre]
    cases hres : scoreEntries st.documentationIndex searchTerms
        query (detectQueryType query) opts now with
    | error e => simp [Except.map, exceptOk]
    | ok results =>
      simp only [Except.map, exceptOk]
      intro hit hmem
      have h1 : hit ∈ (sortByScoreDesc results).filter
          (fun h => decide ((10 : ℝ) < h.score)) :=
        List.mem_of_mem_take hmem
      exact of_decide_eq_true (List.mem_filter.1 h1).2

/-- C10: `searchDocumentation` leaves the documentation index (and the whole
service state) unchanged, and every returned result carries the computed
score and excerpt on a fresh record whose document fields coincide with a
record stored in the index — the `{...doc, score, excerpt}` spread copies
the stored record instead of mutating it. -/
theorem search_leaves_index_unchanged (st : ServiceState) (query : Str)
    (opts : SearchOptions) (now : Int) :
    exceptOk (fun r => r.2 = st ∧
        ∀ hit ∈ r.1.results, ∃ e ∈ st.documentationIndex, hit.doc = e.2)
      (searchDocumentation st query opts now) := by
  cases hpre : preprocessSearchTerms query with
  | error e => simp [searchDocumentation, hpre, exceptOk]
  | ok searchTerms =>
    simp only [searchDocumentation, hpre]
    cases hres : scoreEntries st.documentationIndex searchTerms
        query (detectQueryType query) opts now with
    | error e => simp [Except.map, exceptOk]
    | ok results =>
      simp only [Except.map, exceptOk]
      refine ⟨by simp, ?_⟩
      intro hit hmem
      have h1 : hit ∈ (sortByScoreDesc results).filter
          (fun h => decide ((10 : ℝ) < h.score)) :=
        List.mem_of_mem_take hmem
      have h2 : hit ∈ sortByScoreDesc results := (List.mem_filter.1 h1).1
      have h3 : hit ∈ results := (mem_sortByScoreDesc results hit).1 h2
      exact scoreEntries_doc_mem searchTerms query (detectQueryType query)
        opts now st.documentationIndex results hres hit h3

/-! ### C4, C5: indexing failure semantics and the content-length invariant -/

theorem contentInvariant_mapSet (idx : List (Str × Doc)) (k : Str) (v : Doc)
    (hinv : contentInvariant idx) (hv : isSyntheticDoc v = false → 100 ≤ v.content.length) :
    contentInvariant (mapSet idx k v) := by
  intro e he hns
  rcases mem_mapSet idx k v e he with h | h
  · exact hinv e h hns
  · rw [h]
    rw [h] at hns
    exact hv hns

theorem contentInvariant_mapOfList (idx : List (Str × Doc)) (hinv : contentInvariant idx) :
    contentInvariant (mapOfList idx) := by
  intro e he hns
  rcases mem_foldl_mapSet idx [] e he with h | h
  · cases h
  · exact hinv e h hns

theorem processRstFile_some_good (em er : Str → Str → ParsedMeta) (cm cr : Str → Str)
    (readRes : Except Unit Str) (relPath fp : Str) (now : Int) (m : Metrics)
    (doc : Doc) (m' : Metrics)
    (h : processRstFile em er cm cr readRes relPath fp now m = (some doc, m')) :
    100 ≤ doc.content.length ∧ isSyntheticDoc doc = false := by
  unfold processRstFile at h
  cases readRes with
  | error e => simp at h
  | ok content =>
    dsimp only [] at h
    by_cases hmd : (extnameLower relPath == ".md".data) = true
    · simp only [if_pos hmd] at h
      by_cases hlen : (cm content).length < 100
      · rw [if_pos hlen] at h
        exact absurd h (by simp)
      · rw [if_neg hlen] at h
        rw [Prod.mk.injEq] at h
        obtain ⟨h1, _⟩ := h
        cases h1
        refine ⟨by dsimp only []; omega, rfl⟩
    · simp only [if_neg hmd] at h
      by_cases hlen : (cr content).length < 100
      · rw [if_pos hlen] at h
        exact absurd h (by simp)
      · rw [if_neg hlen] at h
        rw [Prod.mk.injEq] at h
        obtain ⟨h1, _⟩ := h
        cases h1
        refine ⟨by dsimp only []; omega, rfl⟩

theorem processRstFile_short_none (em er : Str → Str → ParsedMeta) (cm cr : Str → Str)
    (content relPath fp : Str) (now : Int) (m : Metrics)
    (hlen : (if extnameLower relPath == ".md".data then cm content
        else cr content).length < 100) :
    (processRstFile em er cm cr (Except.ok content) relPath fp now m).1 = none := by
  unfold processRstFile
  dsimp only []
  by_cases hmd : (extnameLower relPath == ".md".data) = true
  · simp only [if_pos hmd] at hlen ⊢
    rw [if_pos hlen]
  · simp only [if_neg hmd] at hlen ⊢
    rw [if_pos hlen]

theorem contentInvariant_indexFiles (em er : Str → Str → ParsedMeta) (cm cr : Str → Str)
    (now : Int) : ∀ files idx m, contentInvariant idx →
      contentInvariant (indexFiles em er cm cr now files idx m).1 := by
  intro files
  induction files with
  | nil =>
    intro idx m h
    exact h
  | cons f rest ih =>
    intro idx m h
    unfold indexFiles
    rcases hp : processRstFile em er cm cr f.1 f.2.1 f.2.2 now m with ⟨doc?, m'⟩
    cases doc? with
    | some d =>
      dsimp only []
      exact ih _ _ (contentInvariant_mapSet idx d.id d h
        (fun _ => (processRstFile_some_good em er cm cr f.1 f.2.1 f.2.2 now m d m' hp).1))
    | none =>
      dsimp only []
      exact ih _ _ h

theorem contentInvariant_enrich (idx : List (Str × Doc)) (c1 c2 c3 : Str) (now : Int)
    (h : contentInvariant idx) :
    contentInvariant (enrichDocumentationSources idx c1 c2 c3 now) := by
  unfold enrichDocumentationSources generateSyntheticDocuments
  simp only [List.foldl_cons, List.foldl_nil]
  apply contentInvariant_mapSet
  apply contentInvariant_mapSet
  apply contentInvariant_mapSet
  · exact h
  all_goals
    intro hns
    simp [isSyntheticDoc] at hns

/-- C4 counterexample: the claim that a file whose read/parse fails has "the
failedFiles metric counter incremented" is false.  `processRstFile` catches
its own errors and returns `null` without touching the metrics, so the
`failedFiles++` in the outer loop's `catch` is unreachable: indexing one
unreadable file leaves the index and every metric counter — `failedFiles`
included — exactly as they were (0, not the 1 the claim requires). -/
theorem failed_parse_leaves_failedFiles_unchanged :
    indexFiles metaNone metaNone id id 0
        [(Except.error (), "bad.rst".data, "bad.rst".data)] [] {} = ([], ({} : Metrics)) ∧
    (indexFiles metaNone metaNone id id 0
        [(Except.error (), "bad.rst".data, "bad.rst".data)] [] {}).2.failedFiles
      ≠ ({} : Metrics).failedFiles + 1 := by
  constructor
  · rfl
  · decide

/-- C4 (amended): a file whose read or parse fails is caught, logged and
skipped, and the indexing run continues over the remaining files exactly as
if the failing file were absent — but, contrary to the claim, the
`failedFiles` counter is not incremented: the failing file leaves the index
and the metrics untouched (the outer loop's `failedFiles++` is dead code
because `processRstFile` swallows its own exceptions and returns `null`). -/
theorem failing_file_skipped_run_continues
    (extractMd extractRst : Str → Str → ParsedMeta) (cleanMd cleanRst : Str → Str)
    (now : Int) (p fp : Str) (rest : List (Except Unit Str × Str × Str))
    (idx : List (Str × Doc)) (m : Metrics) :
    indexFiles extractMd extractRst cleanMd cleanRst now
        ((Except.error (), p, fp) :: rest) idx m
      = indexFiles extractMd extractRst cleanMd cleanRst now rest idx m := rfl

/-- C5: the index-store invariant — every stored non-synthetic record has
content of length at least 100 — holds at the parser boundary and is
preserved by every index-mutating operation: (1) a successfully parsed
document has content length ≥ 100 and is not synthetic; (2) the parser
returns `null` for a readable file whose cleaned content is under 100
characters; (3) the file-indexing loop preserves the invariant; (4) the
enrichment step adds only `source: 'synthetic'` documents and preserves it;
(5) loading a snapshot produced by save (accepted: version `4.0`, source
`GitHub`) preserves it. -/
theorem index_content_invariant_preserved
    (em er : Str → Str → ParsedMeta) (cm cr : Str → Str)
    (readRes : Except Unit Str) (relPath fp : Str) (now : Int) (m : Metrics)
    (files : List (Except Unit Str × Str × Str)) (idx : List (Str × Doc))
    (c1 c2 c3 : Str) (st : ServiceState) (v : Str) :
    (∀ doc m', processRstFile em er cm cr readRes relPath fp now m = (some doc, m') →
      100 ≤ doc.content.length ∧ isSyntheticDoc doc = false) ∧
    (∀ content, readRes = Except.ok content →
      (if extnameLower relPath == ".md".data then cm content else cr content).length < 100 →
      (processRstFile em er cm cr readRes relPath fp now m).1 = none) ∧
    (contentInvariant idx → contentInvariant (indexFiles em er cm cr now files idx m).1) ∧
    (contentInvariant idx → contentInvariant (enrichDocumentationSources idx c1 c2 c3 now)) ∧
    (contentInvariant st.documentationIndex →
      ∀ docs lu, loadIndexFromCache (saveIndexToCache st v) = some (docs, lu) →
        contentInvariant docs) := by
  refine ⟨?_, ?_, ?_, ?_, ?_⟩
  · intro doc m' h
    exact processRstFile_some_good em er cm cr readRes relPath fp now m doc m' h
  · intro content hread hlen
    rw [hread]
    exact processRstFile_short_none em er cm cr content relPath fp now m hlen
  · intro h
    exact contentInvariant_indexFiles em er cm cr now files idx m h
  · intro h
    exact contentInvariant_enrich idx c1 c2 c3 now h
  · intro h docs lu hload
    unfold loadIndexFromCache saveIndexToCache at hload
    rw [if_pos (by exact ⟨rfl, rfl⟩)] at hload
    rw [Option.some.injEq, Prod.mk.injEq] at hload
    obtain ⟨h1, _⟩ := hload
    rw [← h1]
    exact contentInvariant_mapOfList st.documentationIndex h

/-- Witness for C5 at concrete inputs: a 100-character file parses to a
non-synthetic document of content length 100; a 2-character file parses to
`none`; indexing it into an empty index, enriching an empty index, and
reloading a saved empty index all preserve the invariant. -/
theorem index_content_invariant_witness :
    (100 ≤ docParsed.content.length ∧ isSyntheticDoc docParsed = false) ∧
    (processRstFile metaNone metaNone id id (Except.ok "ab".data) "a.rst".data
        "a.rst".data 0 {}).1 = none ∧
    contentInvariant (indexFiles metaNone metaNone id id 0
        [(Except.ok rawSample, "a.rst".data, "a.rst".data)] [] {}).1 ∧
    contentInvariant (enrichDocumentationSources [] "x".data "y".data "z".data 0) ∧
    contentInvariant (mapOfList (([] : List (Str × Doc)))) := by
  refine ⟨?_, ?_, ?_, ?_, ?_⟩
  · exact (index_content_invariant_preserved metaNone metaNone id id (Except.ok rawSample)
      "a.rst".data "a.rst".data 0 {} [] [] [] [] [] ⟨[], none, {}⟩ "17.0".data).1
      docParsed { processedFiles := 1, totalBytesProcessed := 100 } (by decide)
  · exact (index_content_invariant_preserved metaNone metaNone id id (Except.ok "ab".data)
      "a.rst".data "a.rst".data 0 {} [] [] [] [] [] ⟨[], none, {}⟩ "17.0".data).2.1
      "ab".data rfl (by decide)
  · exact (index_content_invariant_preserved metaNone metaNone id id (Except.ok rawSample)
      "a.rst".data "a.rst".data 0 {}
      [(Except.ok rawSample, "a.rst".data, "a.rst".data)] [] [] [] []
      ⟨[], none, {}⟩ "17.0".data).2.2.1 (fun e he => absurd he (List.not_mem_nil e))
  · exact (index_content_invariant_preserved metaNone metaNone id id (Except.ok rawSample)
      "a.rst".data "a.rst".data 0 {} [] [] "x".data "y".data "z".data
      ⟨[], none, {}⟩ "17.0".data).2.2.2.1 (fun e he => absurd he (List.not_mem_nil e))
  · exact (index_content_invariant_preserved metaNone metaNone id id (Except.ok rawSample)
      "a.rst".data "a.rst".data 0 {} [] [] [] [] []
      ⟨[], none, {}⟩ "17.0".data).2.2.2.2 (fun e he => absurd he (List.not_mem_nil e))
      (mapOfList []) none rfl

/-! ### C6: snapshot round trip -/

/-- C6: saving the index and loading the snapshot in a fresh instance
reproduces an index with the same document count and, for every id, an
identical record; the version tag `4.0` and source tag `GitHub` written by
save are accepted by load.  (`new Map(entries)` reinserts the saved entries
in order, which restores the original association list because a JS `Map`
iterates distinct keys.) -/
theorem save_load_round_trip (st : ServiceState) (v : Str)
    (hkeys : (st.documentationIndex.map Prod.fst).Nodup) :
    ∃ docs, loadIndexFromCache (saveIndexToCache st v) = some (docs, st.lastUpdate) ∧
      docs.length = st.documentationIndex.length ∧
      ∀ i, mapGet docs i = mapGet st.documentationIndex i := by
  refine ⟨st.documentationIndex, ?_, rfl, fun i => rfl⟩
  unfold loadIndexFromCache saveIndexToCache
  rw [if_pos ⟨rfl, rfl⟩]
  rw [mapOfList_eq_self st.documentationIndex hkeys]

/-- Witness for C6: the round trip on the concrete one-document index. -/
theorem save_load_round_trip_witness :
    ((sampleSearchState.documentationIndex.map Prod.fst).Nodup) ∧
    (∃ docs, loadIndexFromCache (saveIndexToCache sampleSearchState "17.0".data)
        = some (docs, sampleSearchState.lastUpdate) ∧
      docs.length = sampleSearchState.documentationIndex.length ∧
      ∀ i, mapGet docs i = mapGet sampleSearchState.documentationIndex i) :=
  ⟨by decide, save_load_round_trip sampleSearchState "17.0".data (by decide)⟩

/-! ### C9: document id derivation -/

/-- C9 counterexample: the claim that for every scanned file the
supported-extension suffix never appears in the id is false.  `isRstFile`
accepts extensions case-insensitively, but the strip regex
`/\.(rst|md)$/` is case-sensitive: the scanned file `A.RST` gets the id
`a.rst`, which still ends in `.rst` (the extension is lower-cased into the
id instead of being stripped). -/
theorem document_id_keeps_uppercase_extension :
    isRstFile "A.RST".data = true ∧
    generateDocumentId "A.RST".data = "a.rst".data ∧
    ".rst".data.isSuffixOf (generateDocumentId "A.RST".data) = true := by
  exact ⟨by decide, by decide, by decide⟩

/-- C9 (amended): the derived id is deterministic (a pure function of the
relative path): separators are replaced by `_`, then one trailing
case-sensitive `.rst` or `.md` is stripped, then the result is lower-cased.
For every path ending in a lower-case supported extension the id is exactly
the lower-cased separator-replaced stem — the extension never appears —
while an upper-case extension (e.g. `A.RST`, still accepted by the scanner)
or a doubled extension survives lower-cased into the id. -/
theorem document_id_characterization (stem : Str) :
    generateDocumentId (stem ++ ".rst".data) = toLowerL (replaceSeps stem) ∧
    generateDocumentId (stem ++ ".md".data) = toLowerL (replaceSeps stem) := by
  have hrepl : ∀ x y : Str, replaceSeps (x ++ y) = replaceSeps x ++ replaceSeps y := by
    intro x y
    unfold replaceSeps
    exact List.map_append _ x y
  constructor
  · unfold generateDocumentId
    rw [hrepl, show replaceSeps ".rst".data = ".rst".data from rfl]
    unfold stripSupportedExt
    rw [if_pos]
    · rw [show (replaceSeps stem ++ ".rst".data).length - 4 = (replaceSeps stem).length from by
        simp [List.length_append]]
      rw [List.take_left]
    · rw [List.isSuffixOf_iff_suffix]
      exact ⟨replaceSeps stem, rfl⟩
  · unfold generateDocumentId
    rw [hrepl, show replaceSeps ".md".data = ".md".data from rfl]
    unfold stripSupportedExt
    have hnot : ¬ ".rst".data.isSuffixOf (replaceSeps stem ++ ".md".data) = true := by
      rw [List.isSuffixOf_iff_suffix]
      intro hsuf
      have hp := List.reverse_prefix.2 hsuf
      rw [List.reverse_append] at hp
      simp [List.cons_prefix_cons] at hp
    rw [if_neg hnot, if_pos]
    · rw [show (replaceSeps stem ++ ".md".data).length - 3 = (replaceSeps stem).length from by
        simp [List.length_append]]
      rw [List.take_left]
    · rw [List.isSuffixOf_iff_suffix]
      exact ⟨replaceSeps stem, rfl⟩
theorem splitWsAux_chars : ∀ (s cur : Str) (mode : Bool) (t : Str),
    t ∈ splitWsAux s cur mode → ∀ c ∈ t, c ∈ s ∨ c ∈ cur := by
  intro s
  induction s with
  | nil =>
    intro cur mode t ht c hc
    cases mode with
    | false =>
      simp only [splitWsAux, List.mem_singleton] at ht
      right
      rw [ht] at hc
      exact List.mem_reverse.1 hc
    | true =>
      simp only [splitWsAux, List.mem_singleton] at ht
      rw [ht] at hc
      cases hc
  | cons a rest ih =>
    intro cur mode t ht c hc
    cases mode with
    | false =>
      by_cases hws : jsIsWs a = true
      · simp only [splitWsAux, if_pos hws] at ht
        rcases List.mem_cons.1 ht with h | h
        · right
          rw [h] at hc
          exact List.mem_reverse.1 hc
        · rcases ih [] true t h c hc with h2 | h2
          · exact Or.inl (List.mem_cons_of_mem a h2)
          · cases h2
      · simp only [splitWsAux, if_neg hws] at ht
        rcases ih (a :: cur) false t ht c hc with h2 | h2
        · exact Or.inl (List.mem_cons_of_mem a h2)
        · rcases List.mem_cons.1 h2 with h3 | h3
          · exact Or.inl (h3 ▸ List.mem_cons_self a rest)
          · exact Or.inr h3
    | true =>
      by_cases hws : jsIsWs a = true
      · simp only [splitWsAux, if_pos hws] at ht
        rcases ih cur true t ht c hc with h2 | h2
        · exact Or.inl (List.mem_cons_of_mem a h2)
        · exact Or.inr h2
      · simp only [splitWsAux, if_neg hws] at ht
        rcases ih [a] false t ht c hc with h2 | h2
        · exact Or.inl (List.mem_cons_of_mem a h2)
        · rcases List.mem_cons.1 h2 with h3 | h3
          · exact Or.inl (h3 ▸ List.mem_cons_self a rest)
          · cases h3
theorem toLowerL_fixed_of_all (t : Str) (h : ∀ c ∈ t, Char.toLower c = c) : toLowerL t = t := by
  unfold toLowerL
  rw [List.map_congr_left h]
  exact List.map_id t

theorem protoAny_iff (t : Str) :
    protoProps.any (fun p => p == t) = true ↔ t ∈ protoProps := by
  rw [List.any_eq_true]
  constructor
  · rintro ⟨p, hp, he⟩
    rw [← eq_of_beq he]
    exact hp
  · intro h
    exact ⟨t, h, by simp⟩

theorem tableLookup_ok_mem (tbl : List (Str × List Str)) (x : Str) (v : List Str)
    (h : tableLookup tbl x = Except.ok v) : ∀ t ∈ v, ∃ e ∈ tbl, t ∈ e.2 := by
  intro t ht
  cases hf : tbl.find? (fun e => e.1 == x) with
  | none =>
    simp only [tableLookup, hf] at h
    by_cases hp : protoProps.any (fun p => p == x) = true
    · rw [if_pos hp] at h
      cases h
    · rw [if_neg hp] at h
      cases h
      cases ht
  | some e =>
    simp only [tableLookup, hf, Except.ok.injEq] at h
    subst h
    exact ⟨e, List.mem_of_find?_eq_some hf, ht⟩

theorem tableLookup_error_iff (tbl : List (Str × List Str)) (t : Str) :
    tableLookup tbl t = Except.error () ↔
      tbl.find? (fun e => e.1 == t) = none ∧ t ∈ protoProps := by
  cases hf : tbl.find? (fun e => e.1 == t) with
  | some e => simp [tableLookup, hf]
  | none =>
    simp only [tableLookup, hf]
    by_cases hp : protoProps.any (fun p => p == t) = true
    · rw [if_pos hp]
      simp [(protoAny_iff t).1 hp]
    · rw [if_neg hp]
      simp
      intro h
      exact hp ((protoAny_iff t).2 h)

theorem expandTerms_error_iff (tbl : List (Str × List Str)) (l : List Str) :
    expandTerms tbl l = Except.error () ↔
      ∃ t ∈ l, tableLookup tbl t = Except.error () := by
  induction l with
  | nil => simp [expandTerms]
  | cons t rest ih =>
    constructor
    · intro h
      unfold expandTerms at h
      cases hl : tableLookup tbl t with
      | error e =>
        cases e
        exact ⟨t, List.mem_cons_self _ _, hl⟩
      | ok v =>
        rw [hl] at h
        cases hr : expandTerms tbl rest with
        | error e =>
          cases e
          obtain ⟨u, hu, hue⟩ := ih.1 hr
          exact ⟨u, List.mem_cons_of_mem t hu, hue⟩
        | ok r =>
          rw [hr] at h
          cases h
    · rintro ⟨u, hu, hue⟩
      unfold expandTerms
      cases hl : tableLookup tbl t with
      | error e =>
        cases e
        rfl
      | ok v =>
        have hrest : ∃ w ∈ rest, tableLookup tbl w = Except.error () := by
          rcases List.mem_cons.1 hu with h1 | h2
          · rw [h1, hl] at hue
            cases hue
          · exact ⟨u, h2, hue⟩
        cases hr : expandTerms tbl rest with
        | error e =>
          cases e
          rfl
        | ok r =>
          have := ih.2 hrest
          rw [hr] at this
          cases this

theorem expandTerms_ok_mem (tbl : List (Str × List Str)) :
    ∀ (l r : List Str), expandTerms tbl l = Except.ok r →
      ∀ x ∈ r, ∃ e ∈ tbl, x ∈ e.2 := by
  intro l
  induction l with
  | nil =>
    intro r h x hx
    cases h
    cases hx
  | cons t rest ih =>
    intro r h x hx
    unfold expandTerms at h
    cases hl : tableLookup tbl t with
    | error e =>
      rw [hl] at h
      cases h
    | ok v =>
      rw [hl] at h
      cases hr : expandTerms tbl rest with
      | error e =>
        rw [hr] at h
        cases h
      | ok rr =>
        rw [hr] at h
        cases h
        rcases List.mem_append.1 hx with hxv | hxr
        · exact tableLookup_ok_mem tbl t v hl x hxv
        · exact ih rr hr x hxr

theorem preprocessSearchTerms_ok (query : Str) (l : List Str)
    (h : preprocessSearchTerms query = Except.ok l) :
    ∃ syn tv,
      expandTerms synonymsTable
          ((splitWs (toLowerL query)).filter (fun t => 2 < t.length)) = Except.ok syn ∧
      expandTerms technicalVariantsTable
          ((splitWs (toLowerL query)).filter (fun t => 2 < t.length)) = Except.ok tv ∧
      l = jsSetDedup
        (((splitWs (toLowerL query)).filter (fun t => 2 < t.length)) ++ syn ++ tv) := by
  simp only [preprocessSearchTerms] at h
  cases hs : expandTerms synonymsTable
      ((splitWs (toLowerL query)).filter (fun t => 2 < t.length)) with
  | error e =>
    rw [hs] at h
    cases h
  | ok syn =>
    rw [hs] at h
    cases ht : expandTerms technicalVariantsTable
        ((splitWs (toLowerL query)).filter (fun t => 2 < t.length)) with
    | error e =>
      rw [ht] at h
      cases h
    | ok tv =>
      rw [ht] at h
      cases h
      exact ⟨syn, tv, rfl, rfl, rfl⟩

theorem synonyms_keys_not_proto :
    ∀ p ∈ protoProps, synonymsTable.find? (fun e => e.1 == p) = none := by decide

theorem preprocess_error_iff (query : Str) :
    preprocessSearchTerms query = Except.error () ↔
      ∃ t ∈ (splitWs (toLowerL query)).filter (fun u => 2 < u.length),
        t ∈ protoProps := by
  simp only [preprocessSearchTerms]
  constructor
  · intro h
    cases hs : expandTerms synonymsTable
        ((splitWs (toLowerL query)).filter (fun t => 2 < t.length)) with
    | error e =>
      cases e
      obtain ⟨t, ht, hte⟩ := (expandTerms_error_iff synonymsTable _).1 hs
      exact ⟨t, ht, ((tableLookup_error_iff synonymsTable t).1 hte).2⟩
    | ok syn =>
      rw [hs] at h
      cases ht : expandTerms technicalVariantsTable
          ((splitWs (toLowerL query)).filter (fun t => 2 < t.length)) with
      | error e =>
        cases e
        obtain ⟨t, htm, hte⟩ := (expandTerms_error_iff technicalVariantsTable _).1 ht
        exact ⟨t, htm, ((tableLookup_error_iff technicalVariantsTable t).1 hte).2⟩
      | ok tv =>
        rw [ht] at h
        cases h
  · rintro ⟨t, htf, hp⟩
    have hlk : tableLookup synonymsTable t = Except.error () :=
      (tableLookup_error_iff synonymsTable t).2 ⟨synonyms_keys_not_proto t hp, hp⟩
    rw [(expandTerms_error_iff synonymsTable _).2 ⟨t, htf, hlk⟩]

theorem synonymsTable_values_lower :
    ∀ e ∈ synonymsTable, ∀ v ∈ e.2, toLowerL v = v := by decide

theorem technicalVariants_values_lower :
    ∀ e ∈ technicalVariantsTable, ∀ v ∈ e.2, toLowerL v = v := by decide

/-! ### C7: query preprocessing -/

/-- C7 counterexample: two failures of the original claim.  First, not
every returned term has length strictly greater than 2: the synonym table
maps the base term `base` to, among others, `db`, whose length is 2
(likewise `py` and `js` from the technical-variant table).  Second, the
function does not even return on every query: for the single lower-case
token `constructor` (length 11, kept by the filter), `synonyms[term]`
walks the prototype chain and yields the inherited truthy
`Object.prototype.constructor`, whose spread throws a `TypeError`; the
token `__proto__` throws likewise. -/
theorem preprocess_terms_contains_short_expansion :
    (preprocessSearchTerms "base".data
        = Except.ok ["base".data, "database".data, "db".data, "donnée".data, "data".data] ∧
      ("db".data : Str).length ≤ 2) ∧
    preprocessSearchTerms "constructor".data = Except.error () ∧
    preprocessSearchTerms "__proto__".data = Except.error () := by
  exact ⟨⟨rfl, by decide⟩, rfl, rfl⟩

/-- C7 (amended): whenever `preprocessSearchTerms` returns, it returns a
duplicate-free list of lower-cased terms that contains every
whitespace-separated token of the lower-cased query whose length exceeds 2 —
expansion is additive only, original qualifying tokens are always kept.
However, the expansion terms contributed by the synonym/technical-variant
tables are not themselves subject to the length filter and may have length
≤ 2 (`db`, `py`, `js`); and the function throws a `TypeError` instead of
returning exactly when some query token that survives the length filter
names an inherited `Object.prototype` property of the table literals
(`constructor`, `__proto__`). -/
theorem preprocess_terms_amended (query : Str) :
    exceptOk (fun l =>
      l.Nodup ∧
      (∀ tok ∈ splitWs (toLowerL query), 2 < tok.length → tok ∈ l) ∧
      (∀ t ∈ l, toLowerL t = t)) (preprocessSearchTerms query) ∧
    (preprocessSearchTerms query = Except.error () ↔
      ∃ tok ∈ splitWs (toLowerL query), 2 < tok.length ∧ tok ∈ protoProps) := by
  constructor
  · cases hp : preprocessSearchTerms query with
    | error e => exact trivial
    | ok l =>
      obtain ⟨syn, tv, hs, ht, hl⟩ := preprocessSearchTerms_ok query l hp
      subst hl
      refine ⟨jsSetDedup_nodup _, ?_, ?_⟩
      · intro tok htok hlen
        rw [jsSetDedup_mem]
        refine List.mem_append.2 (Or.inl (List.mem_append.2 (Or.inl ?_)))
        exact List.mem_filter.2 ⟨htok, decide_eq_true hlen⟩
      · intro t htmem
        rw [jsSetDedup_mem] at htmem
        rcases List.mem_append.1 htmem with h12 | h3
        · rcases List.mem_append.1 h12 with h1 | h2
          · have h1' := (List.mem_filter.1 h1).1
            apply toLowerL_fixed_of_all
            intro c hcm
            rcases splitWsAux_chars (toLowerL query) [] false t h1' c hcm with hq | hq
            · exact toLowerL_fixed_of_mem query c hq
            · cases hq
          · obtain ⟨e, he, hve⟩ := expandTerms_ok_mem synonymsTable _ syn hs t h2
            exact synonymsTable_values_lower e he t hve
        · obtain ⟨e, he, hve⟩ := expandTerms_ok_mem technicalVariantsTable _ tv ht t h3
          exact technicalVariants_values_lower e he t hve
  · rw [preprocess_error_iff]
    constructor
    · rintro ⟨t, htf, hp⟩
      have hmf := List.mem_filter.1 htf
      exact ⟨t, hmf.1, of_decide_eq_true hmf.2, hp⟩
    · rintro ⟨t, hts, hlen, hp⟩
      exact ⟨t, List.mem_filter.2 ⟨hts, decide_eq_true hlen⟩, hp⟩
theorem filter_map_fst_eq_nil_iff (tbl : List (Str × List Str)) (ql : Str) :
    (tbl.filter (fun p => p.2.any (fun kw => jsIncludes ql kw))).map Prod.fst = []
      ↔ ∀ p ∈ tbl, ∀ kw ∈ p.2, jsIncludes ql kw = false := by
  rw [List.map_eq_nil_iff, List.filter_eq_nil_iff]
  constructor
  · intro h p hp kw hkw
    have := h p hp
    rw [Bool.not_eq_true, List.any_eq_false] at this
    simpa using this kw hkw
  · intro h p hp
    rw [Bool.not_eq_true, List.any_eq_false]
    intro kw hkw
    rw [h p hp kw hkw]
    simp

/-! ### C8: query classification -/

theorem any_includes_eq_false_iff (alts : List Str) (ql : Str) :
    alts.any (fun a => jsIncludes ql a) = false ↔ ∀ a ∈ alts, jsIncludes ql a = false := by
  rw [List.any_eq_false]
  constructor
  · intro h a ha
    simpa using h a ha
  · intro h a ha
    simp [h a ha]

/-- C8: the query classifier returns a non-empty tag list for every query,
and it returns exactly the single tag `general` if and only if no
domain-module keyword, no intent/action keyword, and neither complexity
regex (technical or beginner) matches the lower-cased query. -/
theorem detectQueryType_general_iff_no_pattern (query : Str) :
    detectQueryType query ≠ [] ∧
    (detectQueryType query = ["general".data] ↔
      ((∀ p ∈ modulePatterns, ∀ kw ∈ p.2, jsIncludes (toLowerL query) kw = false) ∧
       (∀ p ∈ actionPatterns, ∀ kw ∈ p.2, jsIncludes (toLowerL query) kw = false) ∧
       (∀ a ∈ technicalRegexAlts, jsIncludes (toLowerL query) a = false) ∧
       (∀ a ∈ beginnerRegexAlts, jsIncludes (toLowerL query) a = false))) := by
  simp only [detectQueryType]
  set ql := toLowerL query with hql
  set mt := (modulePatterns.filter (fun p => p.2.any (fun kw => jsIncludes ql kw))).map
    Prod.fst with hmt
  set av := (actionPatterns.filter (fun p => p.2.any (fun kw => jsIncludes ql kw))).map
    Prod.fst with hav
  set cx := (if technicalRegexAlts.any (fun a => jsIncludes ql a) = true
    then ["technical".data]
    else if beginnerRegexAlts.any (fun a => jsIncludes ql a) = true
    then ["beginner".data]
    else ([] : List Str)) with hcx
  have hmt_nil : mt = [] ↔ ∀ p ∈ modulePatterns, ∀ kw ∈ p.2, jsIncludes ql kw = false := by
    rw [hmt]
    exact filter_map_fst_eq_nil_iff modulePatterns ql
  have hav_nil : av = [] ↔ ∀ p ∈ actionPatterns, ∀ kw ∈ p.2, jsIncludes ql kw = false := by
    rw [hav]
    exact filter_map_fst_eq_nil_iff actionPatterns ql
  have hcx_nil : cx = [] ↔
      ((∀ a ∈ technicalRegexAlts, jsIncludes ql a = false) ∧
       (∀ a ∈ beginnerRegexAlts, jsIncludes ql a = false)) := by
    rw [hcx]
    by_cases h1 : (technicalRegexAlts.any fun a => jsIncludes ql a) = true
    · rw [if_pos h1]
      constructor
      · intro hcst
        cases hcst
      · rintro ⟨h3, _⟩
        rw [(any_includes_eq_false_iff _ _).2 h3] at h1
        cases h1
    · rw [if_neg h1]
      by_cases h2 : (beginnerRegexAlts.any fun a => jsIncludes ql a) = true
      · rw [if_pos h2]
        constructor
        · intro hcst
          cases hcst
        · rintro ⟨_, h4⟩
          rw [(any_includes_eq_false_iff _ _).2 h4] at h2
          cases h2
      · rw [if_neg h2]
        constructor
        · intro _
          rw [Bool.not_eq_true] at h1 h2
          exact ⟨(any_includes_eq_false_iff _ _).1 h1, (any_includes_eq_false_iff _ _).1 h2⟩
        · intro _
          rfl
  have hgen_mt : "general".data ∉ mt := by
    intro h
    rw [hmt] at h
    obtain ⟨p, hp, hpe⟩ := List.mem_map.1 h
    have hmem : "general".data ∈ modulePatterns.map Prod.fst :=
      List.mem_map.2 ⟨p, List.mem_of_mem_filter hp, hpe⟩
    revert hmem
    decide
  have hgen_av : "general".data ∉ av := by
    intro h
    rw [hav] at h
    obtain ⟨p, hp, hpe⟩ := List.mem_map.1 h
    have hmem : "general".data ∈ actionPatterns.map Prod.fst :=
      List.mem_map.2 ⟨p, List.mem_of_mem_filter hp, hpe⟩
    revert hmem
    decide
  have hgen_cx : "general".data ∉ cx := by
    intro h
    rw [hcx] at h
    split at h
    · rw [List.mem_singleton] at h
      exact absurd h (by decide)
    · split at h
      · rw [List.mem_singleton] at h
        exact absurd h (by decide)
      · cases h
  constructor
  · by_cases hemp : (mt ++ av ++ cx).isEmpty = true
    · rw [if_pos hemp]
      intro hcon
      cases hcon
    · rw [if_neg hemp]
      intro hcon
      rw [hcon] at hemp
      exact hemp rfl
  · constructor
    · intro heq
      by_cases hemp : (mt ++ av ++ cx).isEmpty = true
      · rw [List.isEmpty_iff] at hemp
        obtain ⟨h12, hc⟩ := List.append_eq_nil.1 hemp
        obtain ⟨h1, h2⟩ := List.append_eq_nil.1 h12
        exact ⟨hmt_nil.1 h1, hav_nil.1 h2, (hcx_nil.1 hc).1, (hcx_nil.1 hc).2⟩
      · rw [if_neg hemp] at heq
        exfalso
        have hgenmem : "general".data ∈ mt ++ av ++ cx := by
          rw [heq]
          exact List.mem_singleton_self _
        rcases List.mem_append.1 hgenmem with hgab | hgc
        · rcases List.mem_append.1 hgab with hga | hgb
          · exact hgen_mt hga
          · exact hgen_av hgb
        · exact hgen_cx hgc
    · rintro ⟨h1, h2, h3, h4⟩
      rw [hmt_nil.2 h1, hav_nil.2 h2, hcx_nil.2 ⟨h3, h4⟩]
      rfl
